import Mathlib

/-!
manif: the tangent algebra, the SO3 constructors and the tangent map view

A shallow embedding of `include/manif/impl/tangent_base.h`,
`include/manif/impl/so3/SO3.h` and `include/manif/impl/se2/SE2Tangent_map.h`.

Conventions of the embedding:

* `Scalar` is a linear ordered field `K` (exact arithmetic; rounding of the
  machine scalar types is not modelled).  The elementary functions the code
  calls (`sqrt`, `sin`, `cos`) are passed as parameters, so every definition
  is computable; theorems that need their real meaning are stated at `ℝ` with
  `Real.sqrt`, `Real.sin`, `Real.cos`.
* `Eigen::Matrix<Scalar, n, 1>` is `Fin n → K`; the Eigen members the code calls
  (`norm`, `isZero`, `isApprox`, `inverse`, the quaternion product, the
  angle-axis conversion) are transcribed in namespace `Eigen`.
* A const method of `TangentBase` is a function of the value of `coeffs()`;
  a mutating method is a function on the state that `coeffs()` refers to.
* Where the outcome of `isApprox` depends on overflow, underflow or NaN
  (reflexivity, the behaviour as the tolerance grows), the comparison is
  transcribed a second time on scalars with a bounded range: the type `Fp` of
  finite values, infinities and NaN, with the arithmetic of a `Fp.Format` whose
  rounding is any monotone function.  `EigenFp.squaredNorm` adds the squares
  from the first coefficient on; the properties proved of it do not depend on
  the order of the additions.
-/

namespace Eigen

/-- Column vector `Eigen::Matrix<Scalar, n, 1>`. -/
abbrev Vec (K : Type) (n : Nat) : Type := Fin n → K

variable {K : Type} [LinearOrderedField K] {n : Nat}

/-- Member `squaredNorm()`: the sum of the squared coefficients. -/
def squaredNorm (v : Vec K n) : K := ∑ i, v i * v i

/-- Member `norm()`: `sqrt(squaredNorm())`. -/
def norm (sqrt : K → K) (v : Vec K n) : K := sqrt (squaredNorm v)

/-- Scalar `internal::isMuchSmallerThan(x, y, prec)`: `abs(x) <= abs(y) * prec`. -/
def isMuchSmallerThan (x y prec : K) : Bool := decide (|x| ≤ |y| * prec)

/-- Member `isZero(prec)`: every coefficient is much smaller than `1`. -/
def isZero (v : Vec K n) (prec : K) : Bool :=
  decide (∀ i, isMuchSmallerThan (v i) 1 prec = true)

/-- Member `x.isApprox(y, prec)` of a vector:
`(x - y).squaredNorm() <= prec * prec * min(x.squaredNorm(), y.squaredNorm())`. -/
def isApprox (x y : Vec K n) (prec : K) : Bool :=
  decide (squaredNorm (x - y) ≤ prec * prec * min (squaredNorm x) (squaredNorm y))

/-- Member `inverse()` of a square matrix, by cofactors: the adjugate scaled by
the inverse of the determinant (the formula Eigen uses for fixed sizes up to
4, and the value of the LU-based inverse of an invertible matrix in exact
arithmetic). -/
def inverse (A : Matrix (Fin n) (Fin n) K) : Matrix (Fin n) (Fin n) K :=
  (A.det)⁻¹ • A.adjugate

end Eigen

namespace manif

open Eigen

variable {K : Type} [LinearOrderedField K] {n : Nat}

namespace TangentBase

/-- Method `TangentBase::isApprox(const Eigen::MatrixBase&, eps)`
(tangent_base.h, 428-447); the first argument is the value of `coeffs()`. -/
def isApprox (sqrt : K → K) (coeffs t : Vec K n) (eps : K) : Bool :=
  if min (Eigen.norm sqrt coeffs) (Eigen.norm sqrt t) < eps then
    isZero (coeffs - t) eps
  else
    Eigen.isApprox coeffs t eps

/-- Method `TangentBase::isApprox(const TangentBase&, eps)` (tangent_base.h, 449-456):
`isApprox(t.coeffs(), eps)`; the tangent `t` is given by its `coeffs()`. -/
def isApproxTangent (sqrt : K → K) (coeffs tCoeffs : Vec K n) (eps : K) : Bool :=
  isApprox sqrt coeffs tCoeffs eps

end TangentBase

/-! ### Calls into the paired group type -/

/-- The two methods of the paired `LieGroup` type that `TangentBase` calls,
`m.rplus(t)` and `m.lplus(t)`.  They belong to the group implementation and are
a parameter of the tangent algebra. -/
structure LieGroupCalls (G T : Type) where
  /-- Method `m.rplus(t)` of the group element `m`. -/
  rplus : G → T → G
  /-- Method `m.lplus(t)` of the group element `m`. -/
  lplus : G → T → G

namespace TangentBase

/-- Method `TangentBase::rplus(const LieGroup& m)` (tangent_base.h, 329-334):
`m.rplus(derived())`. -/
def rplus {G T : Type} (L : LieGroupCalls G T) (derived : T) (m : G) : G :=
  L.rplus m derived

/-- Method `TangentBase::lplus(const LieGroup& m)` (tangent_base.h, 336-341):
`m.lplus(derived())`. -/
def lplus {G T : Type} (L : LieGroupCalls G T) (derived : T) (m : G) : G :=
  L.lplus m derived

/-- Method `TangentBase::plus(const LieGroup& m)` (tangent_base.h, 343-348):
the body is `return m.lplus(derived());`. -/
def plus {G T : Type} (L : LieGroupCalls G T) (derived : T) (m : G) : G :=
  L.lplus m derived

/-- Method `TangentBase::operator +(const LieGroup& m)` (tangent_base.h, 516-521):
`m.lplus(derived())`. -/
def operator_plus {G T : Type} (L : LieGroupCalls G T) (derived : T) (m : G) : G :=
  L.lplus m derived

end TangentBase

/-! ### Jacobians and their inverses -/

/-- Type `Jacobian`: a `DoF x DoF` matrix of scalars. -/
abbrev Jacobian (K : Type) (n : Nat) : Type := Matrix (Fin n) (Fin n) K

/-- What the concrete tangent type `_Derived` supplies for the Jacobian
methods: `rjac()` and `ljac()` always, `rjacinv()` and `ljacinv()` only when the
type defines them (`internal::has_rjacinv<_Derived>::value`,
`internal::has_ljacinv<_Derived>::value`); each is a function of `coeffs()`. -/
structure DerivedJacobians (K : Type) (n : Nat) where
  /-- Method `derived().rjac()`. -/
  rjac : Vec K n → Jacobian K n
  /-- Method `derived().ljac()`. -/
  ljac : Vec K n → Jacobian K n
  /-- Method `derived().rjacinv()`, when `has_rjacinv` holds. -/
  rjacinv : Option (Vec K n → Jacobian K n)
  /-- Method `derived().ljacinv()`, when `has_ljacinv` holds. -/
  ljacinv : Option (Vec K n → Jacobian K n)

namespace TangentBase

/-- Method `TangentBase::rjac()` (tangent_base.h, 366-371): `derived().rjac()`. -/
def rjac (D : DerivedJacobians K n) (coeffs : Vec K n) : Jacobian K n :=
  D.rjac coeffs

/-- Method `TangentBase::ljac()` (tangent_base.h, 373-378): `derived().ljac()`. -/
def ljac (D : DerivedJacobians K n) (coeffs : Vec K n) : Jacobian K n :=
  D.ljac coeffs

/-- Method `TangentBase::rjacinv()` (tangent_base.h, 381-399): the overload enabled
by `has_rjacinv` returns `derived().rjacinv()`, the other one
`derived().rjac().inverse()`. -/
def rjacinv (D : DerivedJacobians K n) (coeffs : Vec K n) : Jacobian K n :=
  match D.rjacinv with
  | some f => f coeffs
  | none => Eigen.inverse (D.rjac coeffs)

/-- Method `TangentBase::ljacinv()` (tangent_base.h, 401-419): the overload enabled
by `has_ljacinv` returns `derived().ljacinv()`, the other one
`derived().ljac().inverse()`. -/
def ljacinv (D : DerivedJacobians K n) (coeffs : Vec K n) : Jacobian K n :=
  match D.ljacinv with
  | some f => f coeffs
  | none => Eigen.inverse (D.ljac coeffs)

end TangentBase

/-- A sample concrete tangent type over the rationals with `DoF = 2`: it has no
`rjacinv` of its own and supplies `ljacinv` in closed form. -/
def sampleJacobians : DerivedJacobians ℚ 2 where
  rjac t := !![1, t 0; 0, 1]
  ljac t := !![1, -(t 0); 0, 1]
  rjacinv := none
  ljacinv := some (fun t => !![1, t 0; 0, 1])

/-! ### Owned storage and the map view -/

/-- What `derived().coeffs()` gives `TangentBase`: a reference to the coefficient
vector, read and written against the state `σ` that holds the coefficients. -/
structure CoeffsRef (σ : Type) (K : Type) (n : Nat) where
  /-- Reading through `const DataType& coeffs() const`. -/
  get : σ → Vec K n
  /-- Writing the whole vector through `DataType& coeffs()`. -/
  set : σ → Vec K n → σ

/-- An owning tangent: the member `DataType data_` is held by value. -/
structure OwnedTangent (K : Type) (n : Nat) where
  /-- Member `data_`. -/
  data_ : Vec K n

/-- Accessor `coeffs()` of an owning tangent: the member `data_`. -/
def OwnedTangent.coeffs : CoeffsRef (OwnedTangent K n) K n where
  get t := t.data_
  set _ v := ⟨v⟩

/-- Scalar memory: the contents of every scalar address. -/
abbrev Memory (K : Type) : Type := Nat → K

/-- Class `Eigen::Map<manif::SE2Tangent<_Scalar>, 0>` (SE2Tangent_map.h, 37-60),
for any `DoF`: the member `data_` is an `Eigen::Map` of `DoF` scalars that holds
only the base address. -/
structure TangentMap (n : Nat) where
  /-- Member `data_`: the address of the first coefficient. -/
  data_ : Nat

/-- Constructor `Map(Scalar* coeffs) : data_(coeffs) { }`: returns the view and the
memory after the call. -/
def TangentMap.construct (coeffs : Nat) (mem : Memory K) : TangentMap n × Memory K :=
  (⟨coeffs⟩, mem)

/-- Accessor `coeffs()` of the view: coefficient `i` is the scalar at address
`data_ + i`; writing stores the `n` coefficients there and nowhere else. -/
def TangentMap.coeffs (view : TangentMap n) : CoeffsRef (Memory K) K n where
  get mem := fun i => mem (view.data_ + i)
  set mem v := fun a =>
    if h : view.data_ ≤ a ∧ a < view.data_ + n then v ⟨a - view.data_, by omega⟩ else mem a

/-- Re-reading the caller's buffer: the `n` scalars stored from address `b` on. -/
def readBuffer (mem : Memory K) (b : Nat) : Vec K n := fun i => mem (b + i)

namespace TangentBase

variable {σ : Type}

/-- Method `TangentBase::setZero()` (tangent_base.h, 301-306): `coeffs().setZero()`. -/
def setZero (R : CoeffsRef σ K n) (s : σ) : σ :=
  R.set s 0

/-- Operator `TangentBase::operator =(const TangentBase&)` (tangent_base.h, 462-479,
both overloads): `coeffs() = t.coeffs()`; `t` is given by its `coeffs()`. -/
def assign (R : CoeffsRef σ K n) (s : σ) (tCoeffs : Vec K n) : σ :=
  R.set s tCoeffs

/-- Operator `TangentBase::operator =(const Eigen::MatrixBase&)` (tangent_base.h,
481-488): `coeffs() = v`. -/
def assignVector (R : CoeffsRef σ K n) (s : σ) (v : Vec K n) : σ :=
  R.set s v

/-- Operator `TangentBase::operator +=(const TangentBase&)` (tangent_base.h, 523-530):
`coeffs() += t.coeffs()`. -/
def addAssign (R : CoeffsRef σ K n) (s : σ) (tCoeffs : Vec K n) : σ :=
  R.set s (R.get s + tCoeffs)

/-- Operator `TangentBase::operator -=(const TangentBase&)` (tangent_base.h, 532-539):
`coeffs() -= t.coeffs()`. -/
def subAssign (R : CoeffsRef σ K n) (s : σ) (tCoeffs : Vec K n) : σ :=
  R.set s (R.get s - tCoeffs)

/-- Operator `TangentBase::operator +=(const Eigen::MatrixBase&)` (tangent_base.h,
559-566): `coeffs() += v`. -/
def addAssignVector (R : CoeffsRef σ K n) (s : σ) (v : Vec K n) : σ :=
  R.set s (R.get s + v)

/-- Operator `TangentBase::operator -=(const Eigen::MatrixBase&)` (tangent_base.h,
568-575): `coeffs() -= v`. -/
def subAssignVector (R : CoeffsRef σ K n) (s : σ) (v : Vec K n) : σ :=
  R.set s (R.get s - v)

end TangentBase

/-! ### Binary operators on tangents and vectors -/

/-- Free operator `operator +(const TangentBase& ta, const TangentBase& tb)`
(tangent_base.h, 541-548): `Tangent tc(ta); return tc += tb;`.  The operands are
given by their `coeffs()`; the copy `tc` is an owning tangent. -/
def operator_plus_tangent (ta tb : Vec K n) : OwnedTangent K n :=
  TangentBase.addAssign OwnedTangent.coeffs ⟨ta⟩ tb

/-- Free operator `operator -(const TangentBase& ta, const TangentBase& tb)`
(tangent_base.h, 550-557): `Tangent tc(ta); return tc -= tb;`. -/
def operator_minus_tangent (ta tb : Vec K n) : OwnedTangent K n :=
  TangentBase.subAssign OwnedTangent.coeffs ⟨ta⟩ tb

/-- Free operator `operator +(const TangentBase& t, const Eigen::MatrixBase& v)`
returning `Tangent` (tangent_base.h, 577-584): `Tangent ret(t); return ret += v;`. -/
def operator_plus_vector (t v : Vec K n) : OwnedTangent K n :=
  TangentBase.addAssignVector OwnedTangent.coeffs ⟨t⟩ v

/-- Free operator `operator -(const TangentBase& t, const Eigen::MatrixBase& v)`
returning `Tangent` (tangent_base.h, 586-593): `Tangent ret(t); return ret -= v;`. -/
def operator_minus_vector (t v : Vec K n) : OwnedTangent K n :=
  TangentBase.subAssignVector OwnedTangent.coeffs ⟨t⟩ v

/-- Free operator `operator +(const Eigen::MatrixBase& v, const TangentBase& t)`
returning `_EigenDerived` (tangent_base.h, 595-602):
`_EigenDerived ret(v); return ret += t.coeffs();`. -/
def operator_plus_vector_tangent (v t : Vec K n) : Vec K n :=
  let ret := v
  ret + t

/-- Free operator `operator -(const TangentBase& t, const Eigen::MatrixBase& v)`
returning `_EigenDerived` (tangent_base.h, 604-611):
`_EigenDerived ret(v); return ret -= t.coeffs();`. -/
def operator_minus_vector_eigen (t v : Vec K n) : Vec K n :=
  let ret := v
  ret - t

/-- Free operator `operator ==(const TangentBase& ta, const TangentBase& tb)`
(tangent_base.h, 658-664): `ta.isApprox(tb, Constants<Scalar>::eps)`.  The
constant `Constants<Scalar>::eps` of `manif/constants.h` is the parameter `eps0`. -/
def operator_eq (sqrt : K → K) (eps0 : K) (ta tb : Vec K n) : Bool :=
  TangentBase.isApproxTangent sqrt ta tb eps0

/-- Free operator `operator ==(const TangentBase& t, const Eigen::MatrixBase& v)`
(tangent_base.h, 666-672): `t.isApprox(v, Constants<Scalar>::eps)`. -/
def operator_eq_vector (sqrt : K → K) (eps0 : K) (t v : Vec K n) : Bool :=
  TangentBase.isApprox sqrt t v eps0

namespace TangentBase

/-- Method `TangentBase::plus(const TangentBase& t)` (tangent_base.h, 350-356):
`return *this + t;`, the operator on two tangents. -/
def plus_tangent (coeffs tCoeffs : Vec K n) : OwnedTangent K n :=
  operator_plus_tangent coeffs tCoeffs

/-- Method `TangentBase::minus(const TangentBase& t)` (tangent_base.h, 358-364):
`return *this - t;`, the operator on two tangents. -/
def minus (coeffs tCoeffs : Vec K n) : OwnedTangent K n :=
  operator_minus_tangent coeffs tCoeffs

end TangentBase

end manif

/-! ### Quaternions and angle-axis rotations of Eigen -/

namespace Eigen

variable {K : Type} [LinearOrderedField K]

/-- Class `Eigen::Quaternion<Scalar>`; `coeffs()` stores the coefficients in the
order `x, y, z, w`. -/
structure Quaternion (K : Type) where
  /-- Coefficient `x()`. -/
  x : K
  /-- Coefficient `y()`. -/
  y : K
  /-- Coefficient `z()`. -/
  z : K
  /-- Coefficient `w()`. -/
  w : K

/-- Member `Quaternion::coeffs()`: the vector `(x, y, z, w)`. -/
def Quaternion.coeffs (q : Eigen.Quaternion K) : Vec K 4 := ![q.x, q.y, q.z, q.w]

/-- Quaternion product `a * b` of Eigen (the Hamilton product). -/
def Quaternion.mul (a b : Eigen.Quaternion K) : Eigen.Quaternion K where
  w := a.w * b.w - a.x * b.x - a.y * b.y - a.z * b.z
  x := a.w * b.x + a.x * b.w + a.y * b.z - a.z * b.y
  y := a.w * b.y + a.y * b.w + a.z * b.x - a.x * b.z
  z := a.w * b.z + a.z * b.w + a.x * b.y - a.y * b.x

/-- Member `Quaternion::toRotationMatrix()`. -/
def Quaternion.toRotationMatrix (q : Eigen.Quaternion K) : Matrix (Fin 3) (Fin 3) K :=
  let tx := 2 * q.x
  let ty := 2 * q.y
  let tz := 2 * q.z
  let twx := tx * q.w
  let twy := ty * q.w
  let twz := tz * q.w
  let txx := tx * q.x
  let txy := ty * q.x
  let txz := tz * q.x
  let tyy := ty * q.y
  let tyz := tz * q.y
  let tzz := tz * q.z
  !![1 - (tyy + tzz), txy - twz, txz + twy;
     txy + twz, 1 - (txx + tzz), tyz - twx;
     txz - twy, tyz + twx, 1 - (txx + tyy)]

/-- Class `Eigen::AngleAxis<Scalar>`, built as `AngleAxis(angle, axis)`. -/
structure AngleAxis (K : Type) where
  /-- Member `angle()`. -/
  angle : K
  /-- Member `axis()`. -/
  axis : Vec K 3

/-- Vector `Matrix<Scalar, 3, 1>::UnitX()`. -/
def UnitX : Vec K 3 := ![1, 0, 0]

/-- Vector `Matrix<Scalar, 3, 1>::UnitY()`. -/
def UnitY : Vec K 3 := ![0, 1, 0]

/-- Vector `Matrix<Scalar, 3, 1>::UnitZ()`. -/
def UnitZ : Vec K 3 := ![0, 0, 1]

/-- Conversion `Quaternion(const AngleAxis& aa)`: with `ha = 0.5 * aa.angle()`,
`w = cos(ha)` and `vec = sin(ha) * aa.axis()`. -/
def AngleAxis.toQuaternion (sin cos : K → K) (aa : AngleAxis K) : Eigen.Quaternion K :=
  let ha := (1 / 2) * aa.angle
  { w := cos ha, x := sin ha * aa.axis 0, y := sin ha * aa.axis 1, z := sin ha * aa.axis 2 }

/-- Operator `AngleAxis * AngleAxis`: `Quaternion(a) * Quaternion(b)`. -/
def AngleAxis.mul (sin cos : K → K) (a b : AngleAxis K) : Eigen.Quaternion K :=
  (a.toQuaternion sin cos).mul (b.toQuaternion sin cos)

/-- Operator `Quaternion * AngleAxis`: `a * Quaternion(b)`. -/
def Quaternion.mulAngleAxis (sin cos : K → K) (a : Eigen.Quaternion K) (b : AngleAxis K) :
    Eigen.Quaternion K :=
  a.mul (b.toQuaternion sin cos)

end Eigen

/-! ### The SO3 constructors -/

namespace manif

open Eigen

variable {K : Type} [LinearOrderedField K]

/-- The exceptions of manif that these files name. -/
inductive Exception where
  /-- Exception `manif::invalid_argument`. -/
  | invalid_argument
  deriving DecidableEq, Repr

/-- Class `SO3<_Scalar>` (SO3.h, 48-122): the member `DataType data_` holds the four
quaternion coefficients `x, y, z, w`. -/
structure SO3 (K : Type) where
  /-- Member `data_`. -/
  data_ : Vec K 4

namespace SO3

/-- Modelled from the spec: the constructor `SO3(const DataType&)`, to which every
constructor of SO3.h delegates and which SO3.h does not define (it comes with
`MANIF_COPY_CONSTRUCTOR` of `manif/impl/macro.h`).  Construction from raw
coefficients is validated: it fails with the invalid-argument condition when the
norm of the coefficients deviates from 1 beyond the tolerance, and otherwise
stores the coefficients.  The tolerance is a constant of the scalar type and a
parameter here. -/
def ofData (sqrt : K → K) (tol : K) (d : Vec K 4) : Except Exception (SO3 K) :=
  if |Eigen.norm sqrt d - 1| ≤ tol then .ok ⟨d⟩ else .error .invalid_argument

/-- Constructor `SO3(const QuaternionDataType& q)` (SO3.h, 134-139): `SO3(q.coeffs())`. -/
def ofQuaternion (sqrt : K → K) (tol : K) (q : Eigen.Quaternion K) : Except Exception (SO3 K) :=
  ofData sqrt tol q.coeffs

/-- Constructor `SO3(x, y, z, w)` (SO3.h, 141-147):
`SO3((DataType() << x, y, z, w).finished())`. -/
def ofXYZW (sqrt : K → K) (tol : K) (x y z w : K) : Except Exception (SO3 K) :=
  ofData sqrt tol ![x, y, z, w]

/-- Constructor `SO3(const Eigen::AngleAxis<Scalar>&)` (SO3.h, 149-154):
`SO3(QuaternionDataType(angle_axis).coeffs())`. -/
def ofAngleAxis (sqrt sin cos : K → K) (tol : K) (angle_axis : AngleAxis K) :
    Except Exception (SO3 K) :=
  ofData sqrt tol (angle_axis.toQuaternion sin cos).coeffs

/-- Constructor `SO3(roll, pitch, yaw)` (SO3.h, 156-165): the quaternion
`AngleAxis(yaw, UnitZ) * AngleAxis(pitch, UnitY) * AngleAxis(roll, UnitX)`
handed to the quaternion constructor. -/
def ofEuler (sqrt sin cos : K → K) (tol : K) (roll pitch yaw : K) : Except Exception (SO3 K) :=
  ofQuaternion sqrt tol
    (((AngleAxis.mk yaw UnitZ).mul sin cos (AngleAxis.mk pitch UnitY)).mulAngleAxis sin cos
      (AngleAxis.mk roll UnitX))

end SO3

/-! ### The group methods behind `rplus` and `lplus` -/

/-- Modelled from the spec: the methods `rplus` and `lplus` of `LieGroupBase`, which
is not among these files.  They are the right and the left composition of the
group element with the group element the tangent retracts to; the group's
composition and the tangent's retraction are parameters. -/
def LieGroupBase.calls {G T : Type} (compose : G → G → G) (retract : T → G) :
    LieGroupCalls G T where
  rplus m t := compose m (retract t)
  lplus m t := compose (retract t) m

/-! ### The rotations the specification names -/

namespace Spec

/-- The quaternion of the rotation by `theta` about the unit axis `A`, as the
specification writes it: `(sin(theta/2) * A, cos(theta/2))`. -/
def axisQuaternion (sin cos : K → K) (A : Vec K 3) (theta : K) : Eigen.Quaternion K where
  x := sin (theta / 2) * A 0
  y := sin (theta / 2) * A 1
  z := sin (theta / 2) * A 2
  w := cos (theta / 2)

/-- The Hamilton product of two quaternions `(v, w)`: scalar part
`w1 w2 - v1 . v2`, vector part `w1 v2 + w2 v1 + v1 x v2`. -/
def hamilton (p q : Eigen.Quaternion K) : Eigen.Quaternion K where
  w := p.w * q.w - (p.x * q.x + p.y * q.y + p.z * q.z)
  x := p.w * q.x + q.w * p.x + (p.y * q.z - p.z * q.y)
  y := p.w * q.y + q.w * p.y + (p.z * q.x - p.x * q.z)
  z := p.w * q.z + q.w * p.z + (p.x * q.y - p.y * q.x)

/-- The rotation matrix about the x axis by `a`. -/
def Rx (sin cos : K → K) (a : K) : Matrix (Fin 3) (Fin 3) K :=
  !![1, 0, 0; 0, cos a, -sin a; 0, sin a, cos a]

/-- The rotation matrix about the y axis by `a`. -/
def Ry (sin cos : K → K) (a : K) : Matrix (Fin 3) (Fin 3) K :=
  !![cos a, 0, sin a; 0, 1, 0; -sin a, 0, cos a]

/-- The rotation matrix about the z axis by `a`. -/
def Rz (sin cos : K → K) (a : K) : Matrix (Fin 3) (Fin 3) K :=
  !![cos a, -sin a, 0; sin a, cos a, 0; 0, 0, 1]

end Spec

end manif

/-! ### Scalars with a bounded range: overflow, infinities and NaN -/

/-- A value of a binary floating-point scalar type (`float`, `double`): a finite
number, an infinity or NaN.  The two zeros are not told apart. -/
inductive Fp where
  /-- A finite value. -/
  | fin (q : ℚ)
  /-- Positive infinity. -/
  | pinf
  /-- Negative infinity. -/
  | ninf
  /-- Not a number. -/
  | nan
  deriving DecidableEq, Repr

namespace Fp

/-- What is assumed of the scalar type's arithmetic: the rounding `rnd` of an
exact finite result (with unbounded exponent, so it also covers gradual
underflow) is monotone and keeps zero; a rounded result of magnitude at least
`overflow` becomes an infinity; `rsqrt` is the rounded square root of a
nonnegative finite value.  Round-to-nearest of `float` and `double` satisfies
these laws, with `overflow = 2^128` and `overflow = 2^1024`. -/
structure Format where
  /-- The least magnitude that overflows. -/
  overflow : ℚ
  /-- The rounding of an exact result. -/
  rnd : ℚ → ℚ
  /-- The rounded square root. -/
  rsqrt : ℚ → ℚ
  /-- The overflow threshold is positive. -/
  overflow_pos : 0 < overflow
  /-- Rounding is monotone. -/
  rnd_mono : ∀ p q, p ≤ q → rnd p ≤ rnd q
  /-- Zero is kept by rounding. -/
  rnd_zero : rnd 0 = 0
  /-- Rounding does not bring a value back below the overflow threshold. -/
  rnd_overflow : ∀ q, overflow ≤ q → overflow ≤ rnd q
  /-- The square root of a nonnegative value is nonnegative. -/
  rsqrt_nonneg : ∀ q, 0 ≤ q → 0 ≤ rsqrt q
  /-- The square root of zero is zero. -/
  rsqrt_zero : rsqrt 0 = 0

/-- A rounded value as a scalar: an infinity once the magnitude reaches the
overflow threshold. -/
def clamp (R : Format) (v : ℚ) : Fp :=
  if R.overflow ≤ v then pinf else if v ≤ -R.overflow then ninf else fin v

/-- The scalar that an operation with exact finite result `q` returns. -/
def ofExact (R : Format) (q : ℚ) : Fp := clamp R (R.rnd q)

/-- Unary minus. -/
def neg : Fp → Fp
  | fin q => fin (-q)
  | pinf => ninf
  | ninf => pinf
  | nan => nan

/-- Scalar `a + b`. -/
def add (R : Format) : Fp → Fp → Fp
  | fin a, fin b => ofExact R (a + b)
  | nan, _ => nan
  | _, nan => nan
  | pinf, ninf => nan
  | ninf, pinf => nan
  | pinf, _ => pinf
  | _, pinf => pinf
  | ninf, _ => ninf
  | _, ninf => ninf

/-- Scalar `a - b`, the sum of `a` and `-b`. -/
def sub (R : Format) (a b : Fp) : Fp := add R a (neg b)

/-- Whether the value is a zero. -/
def isZeroValue : Fp → Bool
  | fin q => decide (q = 0)
  | _ => false

/-- Whether the value is below zero. -/
def isNegative : Fp → Bool
  | fin q => decide (q < 0)
  | ninf => true
  | _ => false

/-- Scalar `a * b`: an infinity times zero is NaN. -/
def mul (R : Format) : Fp → Fp → Fp
  | fin a, fin b => ofExact R (a * b)
  | nan, _ => nan
  | _, nan => nan
  | x, y =>
    if x.isZeroValue || y.isZeroValue then nan
    else if x.isNegative == y.isNegative then pinf else ninf

/-- Function `abs`. -/
def abs : Fp → Fp
  | fin q => fin |q|
  | pinf => pinf
  | ninf => pinf
  | nan => nan

/-- Comparison `a < b`: false when an operand is NaN. -/
def lt : Fp → Fp → Bool
  | fin a, fin b => decide (a < b)
  | fin _, pinf => true
  | ninf, fin _ => true
  | ninf, pinf => true
  | _, _ => false

/-- Comparison `a <= b`: false when an operand is NaN. -/
def le : Fp → Fp → Bool
  | fin a, fin b => decide (a ≤ b)
  | fin _, pinf => true
  | ninf, fin _ => true
  | ninf, pinf => true
  | pinf, pinf => true
  | ninf, ninf => true
  | _, _ => false

/-- Function `std::min(a, b)`: `(b < a) ? b : a`. -/
def min (a b : Fp) : Fp := if lt b a then b else a

/-- Function `sqrt`. -/
def sqrt (R : Format) : Fp → Fp
  | fin q => if q < 0 then nan else fin (R.rsqrt q)
  | pinf => pinf
  | ninf => nan
  | nan => nan

/-- The value is finite and nonnegative, or positive infinity. -/
def IsNonneg : Fp → Prop
  | fin q => 0 ≤ q
  | pinf => True
  | ninf => False
  | nan => False

/-- The value is NaN, or finite and nonnegative, or positive infinity. -/
def IsNonnegOrNan : Fp → Prop
  | fin q => 0 ≤ q
  | pinf => True
  | ninf => False
  | nan => True

/-- A sample format with the range of `double`: a result is flushed to zero when
its magnitude is at most `2^-1075` (half the least subnormal), is exact up to
the overflow threshold `2^1024`, and the square root is `Rat.sqrt`, exact on
squares. -/
def Format.sampleDouble : Format where
  overflow := 2 ^ 1024
  rnd := fun q => if -(1 / 2 ^ 1075) ≤ q ∧ q ≤ 1 / 2 ^ 1075 then 0 else q
  rsqrt := Rat.sqrt
  overflow_pos := by positivity
  rnd_mono := by
    intro p q h
    have ht : (0 : ℚ) < 1 / 2 ^ 1075 := by positivity
    dsimp only
    split_ifs with hp hq hq
    · exact le_refl 0
    · rcases not_and_or.mp hq with h1 | h1
      · linarith [hp.1]
      · linarith
    · rcases not_and_or.mp hp with h1 | h1
      · linarith
      · linarith [hq.2]
    · exact h
  rnd_zero := by
    have ht : (0 : ℚ) < 1 / 2 ^ 1075 := by positivity
    have h : -(1 / 2 ^ 1075) ≤ (0 : ℚ) ∧ (0 : ℚ) ≤ 1 / 2 ^ 1075 :=
      ⟨by linarith, ht.le⟩
    simp only [if_pos h]
  rnd_overflow := by
    intro q h
    have h1 : (1 : ℚ) ≤ 2 ^ 1024 := one_le_pow₀ (by norm_num)
    have h2 : (1 : ℚ) / 2 ^ 1075 < 1 := by
      rw [div_lt_one (by positivity)]
      exact one_lt_pow₀ (by norm_num) (by norm_num)
    have hn : ¬ (-(1 / 2 ^ 1075) ≤ q ∧ q ≤ 1 / 2 ^ 1075) := fun hc => by linarith [hc.2]
    simp only [if_neg hn]
    exact h
  rsqrt_nonneg := fun q _ => Rat.sqrt_nonneg q
  rsqrt_zero := by simp

end Fp

/-! ### The Eigen members and `isApprox` on such scalars -/

namespace EigenFp

variable {n : Nat}

/-- Reduction `sum()`: the coefficients added from the first on. -/
def sum (R : Fp.Format) : List Fp → Fp
  | [] => Fp.fin 0
  | p :: ps => ps.foldl (Fp.add R) p

/-- Member `squaredNorm()`: `cwiseAbs2().sum()`. -/
def squaredNorm (R : Fp.Format) (v : Fin n → Fp) : Fp :=
  sum R (List.ofFn fun i => Fp.mul R (v i) (v i))

/-- Member `norm()`: `sqrt(squaredNorm())`. -/
def norm (R : Fp.Format) (v : Fin n → Fp) : Fp := Fp.sqrt R (squaredNorm R v)

/-- Scalar `internal::isMuchSmallerThan(x, y, prec)`: `abs(x) <= abs(y) * prec`. -/
def isMuchSmallerThan (R : Fp.Format) (x y prec : Fp) : Bool :=
  Fp.le (Fp.abs x) (Fp.mul R (Fp.abs y) prec)

/-- Member `isZero(prec)`: every coefficient is much smaller than `1`. -/
def isZero (R : Fp.Format) (v : Fin n → Fp) (prec : Fp) : Bool :=
  decide (∀ i, isMuchSmallerThan R (v i) (Fp.fin 1) prec = true)

/-- Member `x.isApprox(y, prec)` of a vector:
`(x - y).squaredNorm() <= prec * prec * min(x.squaredNorm(), y.squaredNorm())`. -/
def isApprox (R : Fp.Format) (x y : Fin n → Fp) (prec : Fp) : Bool :=
  Fp.le (squaredNorm R fun i => Fp.sub R (x i) (y i))
    (Fp.mul R (Fp.mul R prec prec) (Fp.min (squaredNorm R x) (squaredNorm R y)))

end EigenFp

namespace manif

namespace TangentBaseFp

variable {n : Nat}

/-- Method `TangentBase::isApprox(const Eigen::MatrixBase&, eps)`
(tangent_base.h, 428-447) on scalars with a bounded range; the first argument
is the value of `coeffs()`. -/
def isApprox (R : Fp.Format) (coeffs t : Fin n → Fp) (eps : Fp) : Bool :=
  if Fp.lt (Fp.min (EigenFp.norm R coeffs) (EigenFp.norm R t)) eps then
    EigenFp.isZero R (fun i => Fp.sub R (coeffs i) (t i)) eps
  else
    EigenFp.isApprox R coeffs t eps

end TangentBaseFp

end manif

/-! ## Lemmas on the Eigen members -/

namespace Eigen

variable {K : Type} [LinearOrderedField K] {n : Nat}

lemma squaredNorm_eq_sum_sq (v : Vec K n) : squaredNorm v = ∑ i, (v i) ^ 2 := by
  unfold squaredNorm
  exact Finset.sum_congr rfl (fun i _ => (sq (v i)).symm)

lemma squaredNorm_sub_comm (a b : Vec K n) : squaredNorm (a - b) = squaredNorm (b - a) := by
  unfold squaredNorm
  refine Finset.sum_congr rfl (fun i _ => ?_)
  simp only [Pi.sub_apply]
  ring

lemma isZero_iff (v : Vec K n) (prec : K) : isZero v prec = true ↔ ∀ i, |v i| ≤ prec := by
  simp [isZero, isMuchSmallerThan]

lemma isApprox_iff (x y : Vec K n) (prec : K) :
    isApprox x y prec = true ↔
      ∑ i, (x i - y i) ^ 2 ≤ prec ^ 2 * min (∑ i, (x i) ^ 2) (∑ i, (y i) ^ 2) := by
  simp only [isApprox, decide_eq_true_eq, squaredNorm_eq_sum_sq, Pi.sub_apply, sq]

end Eigen

/-! ## The tolerance comparison `isApprox` -/

namespace manif

open Eigen

variable {K : Type} [LinearOrderedField K] {n : Nat}

/-- C1: `TangentBase::isApprox` follows the two-regime rule.  When
`min(norm(a), norm(b)) < eps` the result is true exactly when every component of
`a - b` has absolute value at most `eps`; otherwise the result is the Eigen
closeness test, true exactly when
`squaredNorm(a - b) <= eps^2 * min(squaredNorm(a), squaredNorm(b))`.  In
particular, when both norms are below `eps` the result is componentwise
absolute closeness.  The overload taking a tangent gives the same result. -/
theorem TangentBase.isApprox_two_regime (sqrt : K → K) (a b : Vec K n) (eps : K) :
    (min (Eigen.norm sqrt a) (Eigen.norm sqrt b) < eps →
        (TangentBase.isApprox sqrt a b eps = true ↔ ∀ i, |a i - b i| ≤ eps)) ∧
    (¬ min (Eigen.norm sqrt a) (Eigen.norm sqrt b) < eps →
        TangentBase.isApprox sqrt a b eps = Eigen.isApprox a b eps ∧
        (TangentBase.isApprox sqrt a b eps = true ↔
          ∑ i, (a i - b i) ^ 2 ≤ eps ^ 2 * min (∑ i, (a i) ^ 2) (∑ i, (b i) ^ 2))) ∧
    (Eigen.norm sqrt a < eps → Eigen.norm sqrt b < eps →
        (TangentBase.isApprox sqrt a b eps = true ↔ ∀ i, |a i - b i| ≤ eps)) ∧
    TangentBase.isApproxTangent sqrt a b eps = TangentBase.isApprox sqrt a b eps := by
  refine ⟨fun h => ?_, fun h => ?_, fun ha hb => ?_, rfl⟩
  · simp only [TangentBase.isApprox, if_pos h, isZero_iff, Pi.sub_apply]
  · simp only [TangentBase.isApprox, if_neg h, isApprox_iff, true_and]
  · have h : min (Eigen.norm sqrt a) (Eigen.norm sqrt b) < eps :=
      lt_of_le_of_lt (min_le_left _ _) ha
    simp only [TangentBase.isApprox, if_pos h, isZero_iff, Pi.sub_apply]

/-- C9: `isApprox` is symmetric.  For all coefficient vectors `a`, `b` and every
tolerance `eps`, `a.isApprox(b, eps)` and `b.isApprox(a, eps)` are the same
boolean, through either overload. -/
theorem TangentBase.isApprox_symm (sqrt : K → K) (a b : Vec K n) (eps : K) :
    TangentBase.isApprox sqrt a b eps = TangentBase.isApprox sqrt b a eps ∧
    TangentBase.isApproxTangent sqrt a b eps = TangentBase.isApproxTangent sqrt b a eps := by
  have key : TangentBase.isApprox sqrt a b eps = TangentBase.isApprox sqrt b a eps := by
    have hz : isZero (a - b) eps = isZero (b - a) eps := by
      rw [Bool.eq_iff_iff, isZero_iff, isZero_iff]
      simp only [Pi.sub_apply]
      exact forall_congr' (fun i => by rw [abs_sub_comm])
    have ha : Eigen.isApprox a b eps = Eigen.isApprox b a eps := by
      unfold Eigen.isApprox
      rw [squaredNorm_sub_comm a b, min_comm (squaredNorm a) (squaredNorm b)]
    unfold TangentBase.isApprox
    rw [min_comm (Eigen.norm sqrt a) (Eigen.norm sqrt b), hz, ha]
  exact ⟨key, key⟩

/-! ## Composition with a group element -/

/-- C2: what the code does at `t.plus(m)`.  The method returns the group's
left-plus `m.lplus(t)`, the value of `t.lplus(m)`; it equals `t.rplus(m)`, the
documented alias, exactly when the group's `lplus` and `rplus` agree at
`(m, t)`. -/
theorem TangentBase.plus_group_eq_lplus {G T : Type} (L : LieGroupCalls G T) (t : T) (m : G) :
    TangentBase.plus L t m = L.lplus m t ∧
    TangentBase.plus L t m = TangentBase.lplus L t m ∧
    TangentBase.rplus L t m = L.rplus m t ∧
    (TangentBase.plus L t m = TangentBase.rplus L t m ↔ L.lplus m t = L.rplus m t) :=
  ⟨rfl, rfl, rfl, Iff.rfl⟩

/-- The divergence of `plus` from `rplus` at a rotation: with the quaternion
product as composition and any retraction that sends `t` to the quaternion
`(1, 0, 0, 0)` (the half turn about the x axis), `t.plus(m)` and `t.rplus(m)`
differ at `m = (0, 3/5, 0, 4/5)`. -/
lemma TangentBase.plus_group_ne_rplus_sample {T : Type} (retract : T → Eigen.Quaternion ℚ)
    (t : T) (ht : retract t = ⟨1, 0, 0, 0⟩) :
    TangentBase.plus (LieGroupBase.calls Quaternion.mul retract) t ⟨0, 3 / 5, 0, 4 / 5⟩ =
      ⟨4 / 5, 0, 3 / 5, 0⟩ ∧
    TangentBase.rplus (LieGroupBase.calls Quaternion.mul retract) t ⟨0, 3 / 5, 0, 4 / 5⟩ =
      ⟨4 / 5, 0, -(3 / 5), 0⟩ := by
  constructor
  · simp only [TangentBase.plus, LieGroupBase.calls, ht, Quaternion.mul]
    norm_num
  · simp only [TangentBase.rplus, LieGroupBase.calls, ht, Quaternion.mul]
    norm_num

/-- C3: the operator expression `t + m` returns `t.lplus(m)`, which is the
group's left-plus `m.lplus(t)`, for every group and tangent type; the result is
the group's composition and no addition of coefficients is involved. -/
theorem TangentBase.operator_plus_group_eq_lplus {G T : Type} (L : LieGroupCalls G T)
    (t : T) (m : G) :
    TangentBase.operator_plus L t m = TangentBase.lplus L t m ∧
    TangentBase.lplus L t m = L.lplus m t :=
  ⟨rfl, rfl⟩

/-! ## Inverse Jacobians -/

lemma inverse_eq_inv (A : Matrix (Fin n) (Fin n) K) : Eigen.inverse A = A⁻¹ := by
  rw [Eigen.inverse, Matrix.inv_def, Ring.inverse_eq_inv']

lemma mul_inverse_of_isUnit (A : Matrix (Fin n) (Fin n) K) (h : IsUnit A) :
    A * Eigen.inverse A = 1 := by
  rw [inverse_eq_inv]
  exact Matrix.mul_nonsing_inv A ((Matrix.isUnit_iff_isUnit_det A).mp h)

/-- C6: dispatch of `rjacinv()` and `ljacinv()`.  For a concrete type without
its own `rjacinv` (resp. `ljacinv`) and a tangent whose `rjac()` (resp. `ljac()`)
is invertible, the base method returns the matrix inverse of `rjac()` (resp.
`ljac()`), so `rjac * rjacinv = 1` (resp. `ljac * ljacinv = 1`); when the concrete
type supplies the method, the base returns that method's result. -/
theorem TangentBase.jacinv_dispatch (D : DerivedJacobians K n) (t : Vec K n) :
    (D.rjacinv = none → IsUnit (TangentBase.rjac D t) →
      TangentBase.rjacinv D t = (TangentBase.rjac D t)⁻¹ ∧
      TangentBase.rjac D t * TangentBase.rjacinv D t = 1) ∧
    (D.ljacinv = none → IsUnit (TangentBase.ljac D t) →
      TangentBase.ljacinv D t = (TangentBase.ljac D t)⁻¹ ∧
      TangentBase.ljac D t * TangentBase.ljacinv D t = 1) ∧
    (∀ f, D.rjacinv = some f → TangentBase.rjacinv D t = f t) ∧
    (∀ f, D.ljacinv = some f → TangentBase.ljacinv D t = f t) := by
  refine ⟨fun hn hu => ?_, fun hn hu => ?_, fun f hf => ?_, fun f hf => ?_⟩
  · have e : TangentBase.rjacinv D t = Eigen.inverse (TangentBase.rjac D t) := by
      simp only [TangentBase.rjacinv, hn, TangentBase.rjac]
    exact ⟨e.trans (inverse_eq_inv _), by rw [e]; exact mul_inverse_of_isUnit _ hu⟩
  · have e : TangentBase.ljacinv D t = Eigen.inverse (TangentBase.ljac D t) := by
      simp only [TangentBase.ljacinv, hn, TangentBase.ljac]
    exact ⟨e.trans (inverse_eq_inv _), by rw [e]; exact mul_inverse_of_isUnit _ hu⟩
  · simp only [TangentBase.rjacinv, hf]
  · simp only [TangentBase.ljacinv, hf]

/-- Witness of C6 at the sample type and the tangent `(3, 4)`: the fallback inverts
`rjac`, and the supplied `ljacinv` is what the base returns. -/
theorem TangentBase.jacinv_dispatch_witness :
    TangentBase.rjac sampleJacobians ![3, 4] * TangentBase.rjacinv sampleJacobians ![3, 4] = 1 ∧
    TangentBase.ljacinv sampleJacobians ![3, 4] = !![1, 3; 0, 1] := by
  have h := TangentBase.jacinv_dispatch sampleJacobians ![3, 4]
  refine ⟨(h.1 rfl ?_).2, ?_⟩
  · rw [Matrix.isUnit_iff_isUnit_det]
    simp [TangentBase.rjac, sampleJacobians, Matrix.det_fin_two_of]
  · rw [h.2.2.2 _ rfl]
    simp

end manif

/-! ## The map view over an external buffer -/

namespace manif

open Eigen

variable {K : Type} {n : Nat}

lemma TangentMap.read_set (view : TangentMap n) (mem : Memory K) (v : Vec K n) :
    readBuffer ((view.coeffs (K := K)).set mem v) view.data_ = v := by
  funext i
  have h : view.data_ ≤ view.data_ + i ∧ view.data_ + (i : Nat) < view.data_ + n :=
    ⟨Nat.le_add_right _ _, Nat.add_lt_add_left i.isLt _⟩
  simp only [readBuffer, TangentMap.coeffs, dif_pos h]
  congr 1
  exact Fin.ext (Nat.add_sub_cancel_left ..)

lemma TangentMap.set_frame (view : TangentMap n) (mem : Memory K) (v : Vec K n) (a : Nat)
    (h : a < view.data_ ∨ view.data_ + n ≤ a) :
    (view.coeffs (K := K)).set mem v a = mem a := by
  have h' : ¬ (view.data_ ≤ a ∧ a < view.data_ + n) := by omega
  simp only [TangentMap.coeffs, dif_neg h']

/-- C7: a mutable tangent view over an external buffer of `DoF` scalars at
address `view.data_` behaves as an owning tangent whose coefficient vector is
the buffer.  Construction leaves the memory unchanged and `coeffs()` reads the
buffer's current contents; after `setZero`, an assignment from a tangent or a
vector, `+=` or `-=` through the view, re-reading the buffer gives exactly the
coefficients the same operation leaves in an owning instance started from the
buffer's values, and no address outside the buffer changes. -/
theorem TangentMap.behaves_as_owned [LinearOrderedField K] (view : TangentMap n)
    (mem : Memory K) (t : Vec K n) :
    TangentMap.construct view.data_ mem = (view, mem) ∧
    (view.coeffs (K := K)).get mem = readBuffer mem view.data_ ∧
    readBuffer (TangentBase.setZero view.coeffs mem) view.data_ =
      (TangentBase.setZero OwnedTangent.coeffs
        (⟨readBuffer mem view.data_⟩ : OwnedTangent K n)).data_ ∧
    readBuffer (TangentBase.assign view.coeffs mem t) view.data_ =
      (TangentBase.assign OwnedTangent.coeffs ⟨readBuffer mem view.data_⟩ t).data_ ∧
    readBuffer (TangentBase.assignVector view.coeffs mem t) view.data_ =
      (TangentBase.assignVector OwnedTangent.coeffs ⟨readBuffer mem view.data_⟩ t).data_ ∧
    readBuffer (TangentBase.addAssign view.coeffs mem t) view.data_ =
      (TangentBase.addAssign OwnedTangent.coeffs ⟨readBuffer mem view.data_⟩ t).data_ ∧
    readBuffer (TangentBase.subAssign view.coeffs mem t) view.data_ =
      (TangentBase.subAssign OwnedTangent.coeffs ⟨readBuffer mem view.data_⟩ t).data_ ∧
    readBuffer (TangentBase.addAssignVector view.coeffs mem t) view.data_ =
      (TangentBase.addAssignVector OwnedTangent.coeffs ⟨readBuffer mem view.data_⟩ t).data_ ∧
    readBuffer (TangentBase.subAssignVector view.coeffs mem t) view.data_ =
      (TangentBase.subAssignVector OwnedTangent.coeffs ⟨readBuffer mem view.data_⟩ t).data_ ∧
    (∀ a, a < view.data_ ∨ view.data_ + n ≤ a →
      TangentBase.setZero (K := K) view.coeffs mem a = mem a ∧
      TangentBase.assign view.coeffs mem t a = mem a ∧
      TangentBase.assignVector view.coeffs mem t a = mem a ∧
      TangentBase.addAssign view.coeffs mem t a = mem a ∧
      TangentBase.subAssign view.coeffs mem t a = mem a ∧
      TangentBase.addAssignVector view.coeffs mem t a = mem a ∧
      TangentBase.subAssignVector view.coeffs mem t a = mem a) := by
  refine ⟨rfl, rfl, ?_, ?_, ?_, ?_, ?_, ?_, ?_, fun a ha => ⟨?_, ?_, ?_, ?_, ?_, ?_, ?_⟩⟩
  · exact TangentMap.read_set view mem _
  · exact TangentMap.read_set view mem _
  · exact TangentMap.read_set view mem _
  · exact TangentMap.read_set view mem _
  · exact TangentMap.read_set view mem _
  · exact TangentMap.read_set view mem _
  · exact TangentMap.read_set view mem _
  · exact TangentMap.set_frame view mem _ a ha
  · exact TangentMap.set_frame view mem _ a ha
  · exact TangentMap.set_frame view mem _ a ha
  · exact TangentMap.set_frame view mem _ a ha
  · exact TangentMap.set_frame view mem _ a ha
  · exact TangentMap.set_frame view mem _ a ha
  · exact TangentMap.set_frame view mem _ a ha

end manif

/-! ## The SO3 constructors -/

namespace Eigen

variable {K : Type} [LinearOrderedField K]

lemma Quaternion.mul_eq_hamilton (a b : Eigen.Quaternion K) :
    a.mul b = manif.Spec.hamilton a b := by
  unfold Quaternion.mul manif.Spec.hamilton
  congr 1 <;> ring

lemma AngleAxis.toQuaternion_eq (sin cos : K → K) (theta : K) (A : Vec K 3) :
    (AngleAxis.mk theta A).toQuaternion sin cos = manif.Spec.axisQuaternion sin cos A theta := by
  have h : (1 / 2 : K) * theta = theta / 2 := by ring
  simp only [AngleAxis.toQuaternion, manif.Spec.axisQuaternion, h]

lemma squaredNorm_coeffs (q : Eigen.Quaternion K) :
    squaredNorm q.coeffs = q.x * q.x + q.y * q.y + q.z * q.z + q.w * q.w := by
  simp [squaredNorm, Quaternion.coeffs, Fin.sum_univ_four]

lemma squaredNorm_hamilton (p q : Eigen.Quaternion K) :
    squaredNorm (manif.Spec.hamilton p q).coeffs =
      squaredNorm p.coeffs * squaredNorm q.coeffs := by
  simp only [squaredNorm_coeffs, manif.Spec.hamilton]
  ring

end Eigen

namespace manif

open Eigen

lemma Spec.squaredNorm_axisQuaternion (A : Vec ℝ 3) (theta : ℝ)
    (hA : A 0 * A 0 + A 1 * A 1 + A 2 * A 2 = 1) :
    squaredNorm (Spec.axisQuaternion Real.sin Real.cos A theta).coeffs = 1 := by
  have h := Real.sin_sq_add_cos_sq (theta / 2)
  simp only [squaredNorm_coeffs, Spec.axisQuaternion]
  linear_combination (Real.sin (theta / 2)) ^ 2 * hA + h

lemma SO3.ofData_of_unit (tol : ℝ) (htol : 0 ≤ tol) (d : Vec ℝ 4) (hd : squaredNorm d = 1) :
    SO3.ofData Real.sqrt tol d = Except.ok ⟨d⟩ := by
  have h : |Eigen.norm Real.sqrt d - 1| ≤ tol := by
    simp [Eigen.norm, hd, htol]
  simp only [SO3.ofData, if_pos h]

/-- C5: constructing `SO3(x, y, z, w)` from a quadruple whose Euclidean norm
deviates from 1 beyond the tolerance fails with the invalid-argument condition
and produces no group element. -/
theorem SO3.ofXYZW_invalid {K : Type} [LinearOrderedField K] (sqrt : K → K) (tol x y z w : K)
    (h : tol < |sqrt (x * x + y * y + z * z + w * w) - 1|) :
    SO3.ofXYZW sqrt tol x y z w = Except.error Exception.invalid_argument := by
  have hn : Eigen.norm sqrt ![x, y, z, w] = sqrt (x * x + y * y + z * z + w * w) := by
    simp [Eigen.norm, squaredNorm, Fin.sum_univ_four]
  simp only [SO3.ofXYZW, SO3.ofData, hn, if_neg (not_le.mpr h)]

/-- Witness of C5 at the quadruple `(1, 1, 1, 1)`, of Euclidean norm 2, with the
tolerance `1e-9` over the reals. -/
theorem SO3.ofXYZW_invalid_witness :
    (1 / 10 ^ 9 : ℝ) < |Real.sqrt (1 * 1 + 1 * 1 + 1 * 1 + 1 * 1) - 1| ∧
    SO3.ofXYZW Real.sqrt (1 / 10 ^ 9 : ℝ) 1 1 1 1 = Except.error Exception.invalid_argument := by
  have hs : Real.sqrt (1 * 1 + 1 * 1 + 1 * 1 + 1 * 1) = 2 := by
    rw [show (1 * 1 + 1 * 1 + 1 * 1 + 1 * 1 : ℝ) = 2 ^ 2 by norm_num]
    exact Real.sqrt_sq (by norm_num)
  have h : (1 / 10 ^ 9 : ℝ) < |Real.sqrt (1 * 1 + 1 * 1 + 1 * 1 + 1 * 1) - 1| := by
    rw [hs]; norm_num
  exact ⟨h, SO3.ofXYZW_invalid Real.sqrt _ 1 1 1 1 h⟩

set_option maxHeartbeats 1600000 in
lemma Spec.toRotationMatrix_hamilton {K : Type} [LinearOrderedField K]
    (p q : Eigen.Quaternion K)
    (hp : p.x * p.x + p.y * p.y + p.z * p.z + p.w * p.w = 1)
    (hq : q.x * q.x + q.y * q.y + q.z * q.z + q.w * q.w = 1) :
    (Spec.hamilton p q).toRotationMatrix = p.toRotationMatrix * q.toRotationMatrix := by
  ext i j
  fin_cases i <;> fin_cases j <;>
    simp [Quaternion.toRotationMatrix, Spec.hamilton, Matrix.mul_apply, Fin.sum_univ_three]
  · linear_combination
      (-2 * (q.y * q.y + q.z * q.z) - (q.x * q.x + q.y * q.y + q.z * q.z + q.w * q.w - 1)) * hp +
      (-2 * (p.y * p.y + p.z * p.z) + (p.x * p.x + p.y * p.y + p.z * p.z + p.w * p.w - 1)) * hq
  · linear_combination (2 * q.y * q.x - 2 * q.z * q.w) * hp + (2 * p.y * p.x - 2 * p.z * p.w) * hq
  · linear_combination (2 * q.z * q.x + 2 * q.y * q.w) * hp + (2 * p.z * p.x + 2 * p.y * p.w) * hq
  · linear_combination (2 * q.y * q.x + 2 * q.z * q.w) * hp + (2 * p.y * p.x + 2 * p.z * p.w) * hq
  · linear_combination
      (-2 * (q.x * q.x + q.z * q.z) - (q.x * q.x + q.y * q.y + q.z * q.z + q.w * q.w - 1)) * hp +
      (-2 * (p.x * p.x + p.z * p.z) + (p.x * p.x + p.y * p.y + p.z * p.z + p.w * p.w - 1)) * hq
  · linear_combination (2 * q.z * q.y - 2 * q.x * q.w) * hp + (2 * p.z * p.y - 2 * p.x * p.w) * hq
  · linear_combination (2 * q.z * q.x - 2 * q.y * q.w) * hp + (2 * p.z * p.x - 2 * p.y * p.w) * hq
  · linear_combination (2 * q.z * q.y + 2 * q.x * q.w) * hp + (2 * p.z * p.y + 2 * p.x * p.w) * hq
  · linear_combination
      (-2 * (q.x * q.x + q.y * q.y) - (q.x * q.x + q.y * q.y + q.z * q.z + q.w * q.w - 1)) * hp +
      (-2 * (p.x * p.x + p.y * p.y) + (p.x * p.x + p.y * p.y + p.z * p.z + p.w * p.w - 1)) * hq

lemma Spec.cos_eq_half (a : ℝ) : Real.cos a = 1 - 2 * (Real.sin (a / 2) * Real.sin (a / 2)) := by
  have h1 := Real.cos_two_mul (a / 2)
  have h2 := Real.sin_sq_add_cos_sq (a / 2)
  rw [show 2 * (a / 2) = a by ring] at h1
  linear_combination h1 + 2 * h2

lemma Spec.sin_eq_half (a : ℝ) : Real.sin a = 2 * Real.sin (a / 2) * Real.cos (a / 2) := by
  have h1 := Real.sin_two_mul (a / 2)
  rw [show 2 * (a / 2) = a by ring] at h1
  exact h1

lemma Spec.toRotationMatrix_axisX (a : ℝ) :
    (Spec.axisQuaternion Real.sin Real.cos UnitX a).toRotationMatrix =
      Spec.Rx Real.sin Real.cos a := by
  ext i j
  fin_cases i <;> fin_cases j <;>
    simp [Quaternion.toRotationMatrix, Spec.axisQuaternion, UnitX, Spec.Rx,
      Spec.cos_eq_half a, Spec.sin_eq_half a] <;> ring

lemma Spec.toRotationMatrix_axisY (a : ℝ) :
    (Spec.axisQuaternion Real.sin Real.cos UnitY a).toRotationMatrix =
      Spec.Ry Real.sin Real.cos a := by
  ext i j
  fin_cases i <;> fin_cases j <;>
    simp [Quaternion.toRotationMatrix, Spec.axisQuaternion, UnitY, Spec.Ry,
      Spec.cos_eq_half a, Spec.sin_eq_half a] <;> ring

lemma Spec.toRotationMatrix_axisZ (a : ℝ) :
    (Spec.axisQuaternion Real.sin Real.cos UnitZ a).toRotationMatrix =
      Spec.Rz Real.sin Real.cos a := by
  ext i j
  fin_cases i <;> fin_cases j <;>
    simp [Quaternion.toRotationMatrix, Spec.axisQuaternion, UnitZ, Spec.Rz,
      Spec.cos_eq_half a, Spec.sin_eq_half a] <;> ring

lemma Spec.unit_axisQuaternion (A : Vec ℝ 3) (theta : ℝ)
    (hA : A 0 * A 0 + A 1 * A 1 + A 2 * A 2 = 1) :
    (Spec.axisQuaternion Real.sin Real.cos A theta).x *
        (Spec.axisQuaternion Real.sin Real.cos A theta).x +
      (Spec.axisQuaternion Real.sin Real.cos A theta).y *
        (Spec.axisQuaternion Real.sin Real.cos A theta).y +
      (Spec.axisQuaternion Real.sin Real.cos A theta).z *
        (Spec.axisQuaternion Real.sin Real.cos A theta).z +
      (Spec.axisQuaternion Real.sin Real.cos A theta).w *
        (Spec.axisQuaternion Real.sin Real.cos A theta).w = 1 := by
  rw [← squaredNorm_coeffs]
  exact Spec.squaredNorm_axisQuaternion A theta hA

lemma SO3.euler_quaternion_eq (sin cos : ℝ → ℝ) (roll pitch yaw : ℝ) :
    ((AngleAxis.mk yaw UnitZ).mul sin cos (AngleAxis.mk pitch UnitY)).mulAngleAxis sin cos
        (AngleAxis.mk roll UnitX) =
      Spec.hamilton
        (Spec.hamilton (Spec.axisQuaternion sin cos UnitZ yaw)
          (Spec.axisQuaternion sin cos UnitY pitch))
        (Spec.axisQuaternion sin cos UnitX roll) := by
  simp only [AngleAxis.mul, Quaternion.mulAngleAxis, AngleAxis.toQuaternion_eq,
    Quaternion.mul_eq_hamilton]

/-- C4: the Euler-angle constructor `SO3(roll, pitch, yaw)` succeeds and stores
the coefficients of the quaternion `qZ(yaw) * qY(pitch) * qX(roll)` (Hamilton
product, in that order), where `qA(theta) = (sin(theta/2) * A, cos(theta/2))`;
the rotation matrix of that quaternion is `Rz(yaw) * Ry(pitch) * Rx(roll)`. -/
theorem SO3.ofEuler_eq (tol roll pitch yaw : ℝ) (htol : 0 ≤ tol) :
    SO3.ofEuler Real.sqrt Real.sin Real.cos tol roll pitch yaw =
      Except.ok ⟨(Spec.hamilton
        (Spec.hamilton (Spec.axisQuaternion Real.sin Real.cos UnitZ yaw)
          (Spec.axisQuaternion Real.sin Real.cos UnitY pitch))
        (Spec.axisQuaternion Real.sin Real.cos UnitX roll)).coeffs⟩ ∧
    (Spec.hamilton
        (Spec.hamilton (Spec.axisQuaternion Real.sin Real.cos UnitZ yaw)
          (Spec.axisQuaternion Real.sin Real.cos UnitY pitch))
        (Spec.axisQuaternion Real.sin Real.cos UnitX roll)).toRotationMatrix =
      Spec.Rz Real.sin Real.cos yaw * Spec.Ry Real.sin Real.cos pitch *
        Spec.Rx Real.sin Real.cos roll := by
  have hX : (UnitX : Vec ℝ 3) 0 * UnitX 0 + UnitX 1 * UnitX 1 + UnitX 2 * UnitX 2 = 1 := by
    simp [UnitX]
  have hY : (UnitY : Vec ℝ 3) 0 * UnitY 0 + UnitY 1 * UnitY 1 + UnitY 2 * UnitY 2 = 1 := by
    simp [UnitY]
  have hZ : (UnitZ : Vec ℝ 3) 0 * UnitZ 0 + UnitZ 1 * UnitZ 1 + UnitZ 2 * UnitZ 2 = 1 := by
    simp [UnitZ]
  have hzy : squaredNorm (Spec.hamilton (Spec.axisQuaternion Real.sin Real.cos UnitZ yaw)
      (Spec.axisQuaternion Real.sin Real.cos UnitY pitch)).coeffs = 1 := by
    rw [squaredNorm_hamilton, Spec.squaredNorm_axisQuaternion _ _ hZ,
      Spec.squaredNorm_axisQuaternion _ _ hY, mul_one]
  constructor
  · rw [SO3.ofEuler, SO3.euler_quaternion_eq, SO3.ofQuaternion]
    apply SO3.ofData_of_unit tol htol
    rw [squaredNorm_hamilton, hzy, Spec.squaredNorm_axisQuaternion _ _ hX, mul_one]
  · rw [Spec.toRotationMatrix_hamilton _ _ (by rw [← squaredNorm_coeffs]; exact hzy)
        (Spec.unit_axisQuaternion _ _ hX),
      Spec.toRotationMatrix_hamilton _ _ (Spec.unit_axisQuaternion _ _ hZ)
        (Spec.unit_axisQuaternion _ _ hY),
      Spec.toRotationMatrix_axisX, Spec.toRotationMatrix_axisY, Spec.toRotationMatrix_axisZ]

/-- Witness of C4 at roll 1, pitch 2, yaw 3 with the tolerance `1e-9`. -/
theorem SO3.ofEuler_eq_witness :
    (0 : ℝ) ≤ 1 / 10 ^ 9 ∧
    SO3.ofEuler Real.sqrt Real.sin Real.cos (1 / 10 ^ 9) 1 2 3 =
      Except.ok ⟨(Spec.hamilton
        (Spec.hamilton (Spec.axisQuaternion Real.sin Real.cos UnitZ 3)
          (Spec.axisQuaternion Real.sin Real.cos UnitY 2))
        (Spec.axisQuaternion Real.sin Real.cos UnitX 1)).coeffs⟩ :=
  ⟨by norm_num, (SO3.ofEuler_eq (1 / 10 ^ 9) 1 2 3 (by norm_num)).1⟩

/-- C10: for every yaw, the rotation built from the Euler angles
`(roll = 0, pitch = 0, yaw)` is the rotation built from the axis-angle
`(axis = UnitZ, angle = yaw)`, and both succeed with the quaternion coefficients
`(0, 0, sin(yaw/2), cos(yaw/2))`. -/
theorem SO3.ofEuler_yaw_eq_ofAngleAxis (tol yaw : ℝ) (htol : 0 ≤ tol) :
    SO3.ofEuler Real.sqrt Real.sin Real.cos tol 0 0 yaw =
      SO3.ofAngleAxis Real.sqrt Real.sin Real.cos tol (AngleAxis.mk yaw UnitZ) ∧
    SO3.ofAngleAxis Real.sqrt Real.sin Real.cos tol (AngleAxis.mk yaw UnitZ) =
      Except.ok ⟨![0, 0, Real.sin (yaw / 2), Real.cos (yaw / 2)]⟩ := by
  have hZ : (UnitZ : Vec ℝ 3) 0 * UnitZ 0 + UnitZ 1 * UnitZ 1 + UnitZ 2 * UnitZ 2 = 1 := by
    simp [UnitZ]
  have hq : (Spec.axisQuaternion Real.sin Real.cos UnitZ yaw).coeffs =
      ![0, 0, Real.sin (yaw / 2), Real.cos (yaw / 2)] := by
    simp [Spec.axisQuaternion, Quaternion.coeffs, UnitZ]
  have he : (Spec.hamilton
        (Spec.hamilton (Spec.axisQuaternion Real.sin Real.cos UnitZ yaw)
          (Spec.axisQuaternion Real.sin Real.cos UnitY 0))
        (Spec.axisQuaternion Real.sin Real.cos UnitX 0)) =
      Spec.axisQuaternion Real.sin Real.cos UnitZ yaw := by
    simp [Spec.hamilton, Spec.axisQuaternion, UnitX, UnitY, UnitZ]
  have hok : SO3.ofAngleAxis Real.sqrt Real.sin Real.cos tol (AngleAxis.mk yaw UnitZ) =
      Except.ok ⟨![0, 0, Real.sin (yaw / 2), Real.cos (yaw / 2)]⟩ := by
    rw [SO3.ofAngleAxis, AngleAxis.toQuaternion_eq, ← hq]
    exact SO3.ofData_of_unit tol htol _ (Spec.squaredNorm_axisQuaternion _ _ hZ)
  refine ⟨?_, hok⟩
  rw [SO3.ofEuler, SO3.euler_quaternion_eq, he, SO3.ofQuaternion, SO3.ofAngleAxis,
    AngleAxis.toQuaternion_eq]

/-- Witness of C10 at yaw = 90 degrees with the tolerance `1e-9`. -/
theorem SO3.ofEuler_yaw_eq_ofAngleAxis_witness :
    (0 : ℝ) ≤ 1 / 10 ^ 9 ∧
    SO3.ofEuler Real.sqrt Real.sin Real.cos (1 / 10 ^ 9) 0 0 (Real.pi / 2) =
      SO3.ofAngleAxis Real.sqrt Real.sin Real.cos (1 / 10 ^ 9)
        (AngleAxis.mk (Real.pi / 2) UnitZ) ∧
    SO3.ofAngleAxis Real.sqrt Real.sin Real.cos (1 / 10 ^ 9)
        (AngleAxis.mk (Real.pi / 2) UnitZ) =
      Except.ok ⟨![0, 0, Real.sin (Real.pi / 2 / 2), Real.cos (Real.pi / 2 / 2)]⟩ :=
  ⟨by norm_num, SO3.ofEuler_yaw_eq_ofAngleAxis (1 / 10 ^ 9) (Real.pi / 2) (by norm_num)⟩

end manif

/-! ## Arithmetic operators and equality -/

namespace manif

open Eigen

variable {K : Type} [LinearOrderedField K] {n : Nat}

/-- C11: for all tangents `a` and `b`, `a.plus(b)` has the coefficients
`a.coeffs() + b.coeffs()` and `a.minus(b)` the coefficients
`a.coeffs() - b.coeffs()`, componentwise, and they are the values of the
operators `a + b` and `a - b`. -/
theorem TangentBase.plus_minus_tangent (a b : Vec K n) :
    (∀ i, (TangentBase.plus_tangent a b).data_ i = a i + b i) ∧
    (∀ i, (TangentBase.minus a b).data_ i = a i - b i) ∧
    TangentBase.plus_tangent a b = operator_plus_tangent a b ∧
    TangentBase.minus a b = operator_minus_tangent a b ∧
    (operator_plus_tangent a b).data_ = a + b ∧
    (operator_minus_tangent a b).data_ = a - b :=
  ⟨fun _ => rfl, fun _ => rfl, rfl, rfl, rfl, rfl⟩

/-- C12: the comparison `a == b` of two tangents, and of a tangent with a plain
vector, returns exactly `a.isApprox(b, eps0)`, where `eps0` is the one default
epsilon `Constants<Scalar>::eps` of the scalar type. -/
theorem operator_eq_isApprox (sqrt : K → K) (eps0 : K) (a b v : Vec K n) :
    operator_eq sqrt eps0 a b = TangentBase.isApproxTangent sqrt a b eps0 ∧
    operator_eq sqrt eps0 a b = TangentBase.isApprox sqrt a b eps0 ∧
    operator_eq_vector sqrt eps0 a v = TangentBase.isApprox sqrt a v eps0 :=
  ⟨rfl, rfl, rfl⟩

/-- C13: what the mixed tangent/vector operators return.  The two `+` overloads
and the `-` overload returning `Tangent` give `t.coeffs() + v` and
`t.coeffs() - v`; the `-` overload with parameters `(t, v)` returning
`_EigenDerived` gives `v - t.coeffs()`, which is `t.coeffs() - v` only when
`t.coeffs() = v`. -/
theorem operator_minus_vector_eigen_swapped (t v : Vec K n) :
    (∀ i, (operator_plus_vector t v).data_ i = t i + v i) ∧
    (∀ i, operator_plus_vector_tangent v t i = t i + v i) ∧
    (∀ i, (operator_minus_vector t v).data_ i = t i - v i) ∧
    (∀ i, operator_minus_vector_eigen t v i = v i - t i) ∧
    (operator_minus_vector_eigen t v = t - v ↔ t = v) := by
  refine ⟨fun _ => rfl, fun i => ?_, fun _ => rfl, fun _ => rfl, ?_⟩
  · simp only [operator_plus_vector_tangent, Pi.add_apply]
    exact add_comm _ _
  · constructor
    · intro h
      funext i
      have hi := congrFun h i
      simp only [operator_minus_vector_eigen, Pi.sub_apply] at hi
      linarith
    · intro h
      subst h
      rfl

/-- The `-` overload returning `_EigenDerived` at the tangent `(1, 2, 3)` and the
zero vector: the result is `(-1, -2, -3)`, where `t.coeffs() - v` is `(1, 2, 3)`. -/
lemma operator_minus_vector_eigen_sample :
    operator_minus_vector_eigen (![1, 2, 3] : Vec ℚ 3) ![0, 0, 0] = ![-1, -2, -3] ∧
    (operator_minus_vector (![1, 2, 3] : Vec ℚ 3) ![0, 0, 0]).data_ = ![1, 2, 3] := by
  constructor
  · funext i
    fin_cases i <;> simp [operator_minus_vector_eigen]
  · funext i
    fin_cases i <;>
      simp [operator_minus_vector, TangentBase.subAssignVector, OwnedTangent.coeffs]

end manif

/-! ## The tolerance comparison as the tolerance grows -/

namespace manif

open Eigen

lemma Eigen_norm_single (x : ℝ) (hx : 0 ≤ x) : Eigen.norm Real.sqrt (![x] : Vec ℝ 1) = x := by
  simp [Eigen.norm, squaredNorm, Real.sqrt_mul_self hx]

/-- Counterexample to C14 as stated: with `a = (2)`, `b = (6)` and the tolerances
`2 <= 3`, `a.isApprox(b, 2)` is true (relative regime, `16 <= 4 * 4`) and
`a.isApprox(b, 3)` is false (absolute regime, `|2 - 6| > 3`). -/
theorem TangentBase.isApprox_not_monotone :
    (0 : ℝ) ≤ 2 ∧ (2 : ℝ) ≤ 3 ∧
    TangentBase.isApprox Real.sqrt (![2] : Vec ℝ 1) ![6] 2 = true ∧
    TangentBase.isApprox Real.sqrt (![2] : Vec ℝ 1) ![6] 3 = false := by
  have h2 : Eigen.norm Real.sqrt (![2] : Vec ℝ 1) = 2 := Eigen_norm_single 2 (by norm_num)
  have h6 : Eigen.norm Real.sqrt (![6] : Vec ℝ 1) = 6 := Eigen_norm_single 6 (by norm_num)
  refine ⟨by norm_num, by norm_num, ?_, ?_⟩
  · have c : ¬ min (Eigen.norm Real.sqrt (![2] : Vec ℝ 1)) (Eigen.norm Real.sqrt ![6]) < 2 := by
      rw [h2, h6]; norm_num
    rw [TangentBase.isApprox, if_neg c, Eigen.isApprox, decide_eq_true_eq]
    simp only [squaredNorm, Finset.univ_unique, Fin.default_eq_zero, Finset.sum_singleton,
      Pi.sub_apply, Matrix.cons_val_zero]
    norm_num
  · have c : min (Eigen.norm Real.sqrt (![2] : Vec ℝ 1)) (Eigen.norm Real.sqrt ![6]) < 3 := by
      rw [h2, h6]; norm_num
    rw [TangentBase.isApprox, if_pos c, ← Bool.not_eq_true, isZero_iff]
    intro h
    have h0 := h 0
    simp only [Pi.sub_apply, Matrix.cons_val_zero] at h0
    norm_num at h0

end manif

/-! ## Lemmas on scalars with a bounded range -/

namespace Fp

variable (R : Format)

lemma clamp_zero : clamp R 0 = fin 0 := by
  have h := R.overflow_pos
  have h1 : ¬ R.overflow ≤ 0 := not_le.mpr h
  have h2 : ¬ (0 : ℚ) ≤ -R.overflow := by linarith
  simp [clamp, h1, h2]

lemma ofExact_zero : ofExact R 0 = fin 0 := by
  rw [ofExact, R.rnd_zero, clamp_zero]

lemma clamp_isNonneg {v : ℚ} (h : 0 ≤ v) : IsNonneg (clamp R v) := by
  have hp := R.overflow_pos
  unfold clamp
  split_ifs with h1 h2
  · trivial
  · exfalso; linarith
  · exact h

lemma ofExact_isNonneg {q : ℚ} (h : 0 ≤ q) : IsNonneg (ofExact R q) := by
  apply clamp_isNonneg
  have := R.rnd_mono 0 q h
  rwa [R.rnd_zero] at this

lemma clamp_mono {u v : ℚ} (h : u ≤ v) : le (clamp R u) (clamp R v) = true := by
  have hp := R.overflow_pos
  unfold clamp
  split_ifs <;> simp [le] <;> linarith

lemma ofExact_mono {p q : ℚ} (h : p ≤ q) : le (ofExact R p) (ofExact R q) = true :=
  clamp_mono R (R.rnd_mono p q h)

lemma ofExact_overflow {q : ℚ} (h : R.overflow ≤ q) : ofExact R q = pinf := by
  simp [ofExact, clamp, R.rnd_overflow q h]

lemma le_trans {x y z : Fp} (h1 : le x y = true) (h2 : le y z = true) : le x z = true := by
  cases x <;> cases y <;> cases z <;> simp_all [le]
  exact h1.trans h2

lemma lt_of_lt_of_le {x y z : Fp} (h1 : lt x y = true) (h2 : le y z = true) :
    lt x z = true := by
  cases x <;> cases y <;> cases z <;> simp_all [le, lt]
  exact h1.trans_le h2

lemma le_of_isNonneg {x : Fp} (h : IsNonneg x) : le (fin 0) x = true := by
  cases x <;> simp_all [le, IsNonneg]

lemma IsNonneg.orNan {x : Fp} (h : IsNonneg x) : IsNonnegOrNan x := by
  cases x <;> simp_all [IsNonneg, IsNonnegOrNan]

lemma le_pinf_of_isNonneg {x : Fp} (h : IsNonneg x) : le x pinf = true := by
  cases x <;> simp_all [le, IsNonneg]

lemma mul_self_isNonnegOrNan (x : Fp) : IsNonnegOrNan (mul R x x) := by
  cases x with
  | fin a => exact (ofExact_isNonneg R (mul_self_nonneg a)).orNan
  | pinf => simp [mul, isZeroValue, isNegative, IsNonnegOrNan]
  | ninf => simp [mul, isZeroValue, isNegative, IsNonnegOrNan]
  | nan => simp [mul, IsNonnegOrNan]

lemma add_isNonnegOrNan {x y : Fp} (hx : IsNonnegOrNan x) (hy : IsNonnegOrNan y) :
    IsNonnegOrNan (add R x y) := by
  cases x <;> cases y <;> simp_all [add, IsNonnegOrNan]
  exact (ofExact_isNonneg R (add_nonneg hx hy)).orNan

lemma add_isNonneg {x y : Fp} (hx : IsNonneg x) (hy : IsNonneg y) :
    IsNonneg (add R x y) := by
  cases x <;> cases y <;> simp_all [add, IsNonneg]
  exact ofExact_isNonneg R (add_nonneg hx hy)

lemma sub_self_fin (a : ℚ) : sub R (fin a) (fin a) = fin 0 := by
  simp [sub, neg, add, ofExact_zero]

lemma min_self (x : Fp) : min x x = x := by
  simp [min]

end Fp

namespace EigenFp

open Fp

variable (R : Format) {n : Nat}

lemma foldl_induct (P : Fp → Prop) (hadd : ∀ x y, P x → P y → P (add R x y))
    (ps : List Fp) (p : Fp) (hp : P p) (hps : ∀ x ∈ ps, P x) :
    P (ps.foldl (add R) p) := by
  induction ps generalizing p with
  | nil => exact hp
  | cons q qs ih =>
    rw [List.foldl_cons]
    exact ih (add R p q) (hadd p q hp (hps q (List.mem_cons_self q qs)))
      (fun x hx => hps x (List.mem_cons_of_mem q hx))

lemma sum_induct (P : Fp → Prop) (h0 : P (fin 0))
    (hadd : ∀ x y, P x → P y → P (add R x y)) (l : List Fp) (hl : ∀ x ∈ l, P x) :
    P (sum R l) := by
  cases l with
  | nil => exact h0
  | cons p ps =>
    exact foldl_induct R P hadd ps p (hl p (List.mem_cons_self p ps))
      (fun x hx => hl x (List.mem_cons_of_mem p hx))

lemma squaredNorm_induct (P : Fp → Prop) (h0 : P (fin 0))
    (hadd : ∀ x y, P x → P y → P (add R x y)) (v : Fin n → Fp)
    (hv : ∀ i, P (mul R (v i) (v i))) : P (squaredNorm R v) := by
  apply sum_induct R P h0 hadd
  intro x hx
  obtain ⟨i, rfl⟩ := (List.mem_ofFn _ _).mp hx
  exact hv i

lemma squaredNorm_isNonnegOrNan (v : Fin n → Fp) : IsNonnegOrNan (squaredNorm R v) :=
  squaredNorm_induct R IsNonnegOrNan (le_refl (0 : ℚ)) (fun _ _ => add_isNonnegOrNan R) v
    (fun i => mul_self_isNonnegOrNan R (v i))

lemma squaredNorm_isNonneg_of_finite (v : Fin n → Fp) (hv : ∀ i, ∃ q, v i = fin q) :
    IsNonneg (squaredNorm R v) := by
  refine squaredNorm_induct R IsNonneg (le_refl (0 : ℚ)) (fun _ _ => add_isNonneg R) v ?_
  intro i
  obtain ⟨q, hq⟩ := hv i
  rw [hq]
  exact ofExact_isNonneg R (mul_self_nonneg q)

lemma squaredNorm_zero (v : Fin n → Fp) (hv : ∀ i, v i = fin 0) :
    squaredNorm R v = fin 0 := by
  refine squaredNorm_induct R (fun x => x = fin 0) rfl ?_ v ?_
  · intro x y hx hy
    rw [hx, hy]
    simp [add, ofExact_zero]
  · intro i
    rw [hv i]
    simp [mul, ofExact_zero]

lemma sub_self_finite (x : Fin n → Fp) (hx : ∀ i, ∃ q, x i = fin q) (i : Fin n) :
    sub R (x i) (x i) = fin 0 := by
  obtain ⟨q, hq⟩ := hx i
  rw [hq, sub_self_fin]

end EigenFp

namespace Fp

variable (R : Format)

lemma mul_self_isNonneg {eps : Fp} (h : le (fin 0) eps = true) : IsNonneg (mul R eps eps) := by
  cases eps with
  | fin e => exact ofExact_isNonneg R (mul_self_nonneg e)
  | pinf => simp [mul, isZeroValue, isNegative, IsNonneg]
  | ninf => simp [le] at h
  | nan => simp [le] at h

lemma lt_zero_of_mul_self_pinf {eps : Fp} (h0 : le (fin 0) eps = true)
    (h : mul R eps eps = pinf) : lt (fin 0) eps = true := by
  cases eps with
  | fin e =>
    simp only [le, decide_eq_true_eq] at h0
    simp only [lt, decide_eq_true_eq]
    rcases h0.lt_or_eq with hlt | heq
    · exact hlt
    · rw [← heq] at h
      simp [mul, ofExact_zero] at h
  | pinf => rfl
  | ninf => simp [le] at h0
  | nan => simp [le] at h0

lemma one_mul_isNonneg {eps : Fp} (h : le (fin 0) eps = true) :
    IsNonneg (mul R (fin 1) eps) := by
  cases eps with
  | fin e =>
    simp only [le, decide_eq_true_eq] at h
    exact ofExact_isNonneg R (by simpa using h)
  | pinf => simp [mul, isZeroValue, isNegative, IsNonneg]
  | ninf => simp [le] at h
  | nan => simp [le] at h

lemma mul_isNonneg_fin {E : Fp} {q : ℚ} (hE : IsNonneg E) (hq : 0 < q) :
    IsNonneg (mul R E (fin q)) := by
  cases E with
  | fin r => exact ofExact_isNonneg R (mul_nonneg hE hq.le)
  | pinf => simp [mul, isZeroValue, isNegative, IsNonneg, hq.ne', not_lt.mpr hq.le]
  | ninf => exact hE.elim
  | nan => exact hE.elim

lemma mul_fin_zero {E : Fp} (hE : IsNonneg E) (h : E ≠ pinf) : mul R E (fin 0) = fin 0 := by
  cases E with
  | fin r => simp [mul, ofExact_zero]
  | pinf => exact (h rfl).elim
  | ninf => exact hE.elim
  | nan => exact hE.elim

end Fp

namespace manif

open Fp EigenFp

variable {n : Nat}

/-- The comparison of a finite vector with itself on scalars with a bounded range. -/
lemma TangentBaseFp.isApprox_self_iff (R : Format) (x : Fin n → Fp) (eps : Fp)
    (hx : ∀ i, ∃ q, x i = fin q) (heps : le (fin 0) eps = true) :
    TangentBaseFp.isApprox R x x eps = true ↔
      ¬ (squaredNorm R x = pinf ∧ mul R eps eps = fin 0) := by
  have hsd : squaredNorm R (fun i => sub R (x i) (x i)) = fin 0 :=
    squaredNorm_zero R _ (sub_self_finite R x hx)
  have hd : (fun i => sub R (x i) (x i)) = fun _ => fin 0 :=
    funext (sub_self_finite R x hx)
  have hs := squaredNorm_isNonneg_of_finite R x hx
  have hE := mul_self_isNonneg R heps
  have hEp := lt_zero_of_mul_self_pinf R heps
  have h1 := one_mul_isNonneg R heps
  unfold TangentBaseFp.isApprox EigenFp.norm EigenFp.isApprox
  rw [hsd, hd, min_self, min_self]
  generalize squaredNorm R x = s at hs ⊢
  generalize mul R eps eps = E at hE hEp ⊢
  cases s with
  | fin q =>
    have hq : ¬ q < 0 := not_lt.mpr hs
    simp only [sqrt, if_neg hq, reduceCtorEq, false_and, not_false_eq_true, iff_true]
    split
    · simp only [EigenFp.isZero, isMuchSmallerThan, Fp.abs, abs_zero, abs_one,
        decide_eq_true_eq]
      exact fun _ => le_of_isNonneg h1
    · rename_i hreg
      rcases (show (0 : ℚ) ≤ q from hs).lt_or_eq with hpos | hzero
      · exact le_of_isNonneg (mul_isNonneg_fin R hE hpos)
      · subst hzero
        by_cases hp : E = pinf
        · rw [R.rsqrt_zero] at hreg
          exact absurd (hEp hp) hreg
        · rw [mul_fin_zero R hE hp]
          rfl
  | pinf =>
    have hlt : lt pinf eps = false := by cases eps <;> rfl
    simp only [sqrt, hlt, Bool.false_eq_true, if_false, true_and]
    cases E with
    | fin r =>
      by_cases hr : r = 0
      · subst hr
        simp [mul, isZeroValue, le]
      · have hr' : ¬ r < 0 := not_lt.mpr hE
        simp [mul, isZeroValue, isNegative, le, hr, hr']
    | pinf => simp [mul, isZeroValue, isNegative, le]
    | ninf => exact hE.elim
    | nan => exact hE.elim
  | ninf => exact hs.elim
  | nan => exact hs.elim

end manif

namespace Fp

variable (R : Format)

lemma ne_nan_of_le {x y : Fp} (h : le x y = true) : y ≠ nan := by
  cases x <;> cases y <;> simp_all [le]

lemma mul_self_mono {eps eps' : Fp} (h0 : le (fin 0) eps = true) (hle : le eps eps' = true) :
    le (mul R eps eps) (mul R eps' eps') = true := by
  cases eps with
  | fin e =>
    cases eps' with
    | fin e' =>
      simp only [le, decide_eq_true_eq] at h0 hle
      exact ofExact_mono R (mul_self_le_mul_self h0 hle)
    | pinf =>
      have hp : mul R pinf pinf = pinf := by simp [mul, isZeroValue, isNegative]
      rw [hp]
      exact le_pinf_of_isNonneg (ofExact_isNonneg R (mul_self_nonneg e))
    | ninf => simp [le] at hle
    | nan => simp [le] at hle
  | pinf =>
    cases eps' with
    | pinf => simp [mul, isZeroValue, isNegative, le]
    | fin e' => simp [le] at hle
    | ninf => simp [le] at hle
    | nan => simp [le] at hle
  | ninf => simp [le] at h0
  | nan => simp [le] at h0

lemma one_mul_mono {eps eps' : Fp} (h0 : le (fin 0) eps = true) (hle : le eps eps' = true) :
    le (mul R (fin 1) eps) (mul R (fin 1) eps') = true := by
  cases eps with
  | fin e =>
    cases eps' with
    | fin e' =>
      simp only [le, decide_eq_true_eq] at h0 hle
      exact ofExact_mono R (by simpa using hle)
    | pinf =>
      have hp : mul R (fin 1) pinf = pinf := by simp [mul, isZeroValue, isNegative]
      rw [hp]
      exact le_pinf_of_isNonneg (one_mul_isNonneg R h0)
    | ninf => simp [le] at hle
    | nan => simp [le] at hle
  | pinf =>
    cases eps' with
    | pinf => simp [mul, isZeroValue, isNegative, le]
    | fin e' => simp [le] at hle
    | ninf => simp [le] at hle
    | nan => simp [le] at hle
  | ninf => simp [le] at h0
  | nan => simp [le] at h0

lemma mul_pinf_fin {m : ℚ} (hm : 0 < m) : mul R pinf (fin m) = pinf := by
  simp [mul, isZeroValue, isNegative, hm.ne', not_lt.mpr hm.le]

lemma mul_fin_pinf {r : ℚ} (hr : 0 < r) : mul R (fin r) pinf = pinf := by
  simp [mul, isZeroValue, isNegative, hr.ne', not_lt.mpr hr.le]

lemma mul_zero_pinf : mul R (fin 0) pinf = nan := by
  simp [mul, isZeroValue]

lemma mul_pinf_pinf : mul R pinf pinf = pinf := by
  simp [mul, isZeroValue, isNegative]

lemma mul_mono_right {E E' M : Fp} (hE : IsNonneg E) (hEE : le E E' = true)
    (hM : IsNonnegOrNan M) (hnn : mul R E M ≠ nan) :
    (E' = pinf ∧ M = fin 0) ∨ le (mul R E M) (mul R E' M) = true := by
  cases M with
  | nan => cases E <;> simp [mul] at hnn
  | ninf => exact hM.elim
  | fin m =>
    have hm : (0 : ℚ) ≤ m := hM
    cases E with
    | ninf => exact hE.elim
    | nan => exact hE.elim
    | fin r =>
      have hr : (0 : ℚ) ≤ r := hE
      cases E' with
      | fin r' =>
        simp only [le, decide_eq_true_eq] at hEE
        exact Or.inr (ofExact_mono R (mul_le_mul_of_nonneg_right hEE hm))
      | pinf =>
        rcases hm.lt_or_eq with hpos | hzero
        · right
          rw [mul_pinf_fin R hpos]
          exact le_pinf_of_isNonneg (ofExact_isNonneg R (mul_nonneg hr hm))
        · exact Or.inl ⟨rfl, by rw [hzero]⟩
      | ninf => simp [le] at hEE
      | nan => simp [le] at hEE
    | pinf =>
      cases E' with
      | pinf =>
        rcases hm.lt_or_eq with hpos | hzero
        · right
          rw [mul_pinf_fin R hpos]
          rfl
        · exact Or.inl ⟨rfl, by rw [hzero]⟩
      | fin r' => simp [le] at hEE
      | ninf => simp [le] at hEE
      | nan => simp [le] at hEE
  | pinf =>
    cases E with
    | ninf => exact hE.elim
    | nan => exact hE.elim
    | fin r =>
      have hr : (0 : ℚ) ≤ r := hE
      rcases hr.lt_or_eq with hpos | hzero
      · right
        rw [mul_fin_pinf R hpos]
        cases E' with
        | fin r' =>
          simp only [le, decide_eq_true_eq] at hEE
          rw [mul_fin_pinf R (hpos.trans_le hEE)]
          rfl
        | pinf => rw [mul_pinf_pinf]; rfl
        | ninf => simp [le] at hEE
        | nan => simp [le] at hEE
      · rw [← hzero, mul_zero_pinf] at hnn
        exact (hnn rfl).elim
    | pinf =>
      cases E' with
      | pinf => right; rw [mul_pinf_pinf]; rfl
      | fin r' => simp [le] at hEE
      | ninf => simp [le] at hEE
      | nan => simp [le] at hEE

lemma min_isNonnegOrNan {x y : Fp} (hx : IsNonnegOrNan x) (hy : IsNonnegOrNan y) :
    IsNonnegOrNan (min x y) := by
  unfold min
  split
  · exact hy
  · exact hx

lemma min_sqrt_eq_zero {sa sb : Fp} (ha : IsNonnegOrNan sa) (hb : IsNonnegOrNan sb)
    (h : min sa sb = fin 0) : min (sqrt R sa) (sqrt R sb) = fin 0 := by
  cases sa with
  | ninf => exact ha.elim
  | nan => simp [min, lt] at h
  | pinf =>
    cases sb with
    | ninf => exact hb.elim
    | nan => simp [min, lt] at h
    | pinf => simp [min, lt] at h
    | fin q =>
      have hq : q = 0 := by simpa [min, lt] using h
      subst hq
      simp [min, lt, sqrt, R.rsqrt_zero]
  | fin p =>
    have hp : (0 : ℚ) ≤ p := ha
    cases sb with
    | ninf => exact hb.elim
    | nan =>
      have hp0 : p = 0 := by simpa [min, lt] using h
      subst hp0
      simp [min, lt, sqrt, R.rsqrt_zero]
    | pinf =>
      have hp0 : p = 0 := by simpa [min, lt] using h
      subst hp0
      simp [min, lt, sqrt, R.rsqrt_zero]
    | fin q =>
      have hq : (0 : ℚ) ≤ q := hb
      have hrp := R.rsqrt_nonneg p hp
      have hrq := R.rsqrt_nonneg q hq
      by_cases hlt : q < p
      · have hq0 : q = 0 := by simpa [min, lt, hlt] using h
        subst hq0
        by_cases hr : 0 < R.rsqrt p
        · simp [min, lt, sqrt, not_lt.mpr hp, R.rsqrt_zero, hr]
        · have hr0 : R.rsqrt p = 0 := le_antisymm (not_lt.mp hr) hrp
          simp [min, lt, sqrt, not_lt.mpr hp, R.rsqrt_zero, hr0]
      · have hp0 : p = 0 := by simpa [min, lt, hlt] using h
        subst hp0
        simp [min, lt, sqrt, R.rsqrt_zero, not_lt.mpr hq, not_lt.mpr hrq]

end Fp

namespace manif

open Fp EigenFp

variable {n : Nat}

/-- C14, amended: on scalars with a bounded range, for all coefficient vectors
`a`, `b` and all tolerances `0 <= eps <= eps'` at which the pair is compared in
the same regime (the absolute regime already at `eps`, or the relative regime
still at `eps'`), if `a.isApprox(b, eps)` is true then `a.isApprox(b, eps')` is
true.  Only the switch from the relative to the absolute regime is left out. -/
theorem TangentBaseFp.isApprox_mono_same_regime (R : Format) (a b : Fin n → Fp)
    (eps eps' : Fp) (h0 : le (fin 0) eps = true) (hle : le eps eps' = true)
    (hreg : lt (Fp.min (norm R a) (norm R b)) eps = true ∨
      lt (Fp.min (norm R a) (norm R b)) eps' = false)
    (h : TangentBaseFp.isApprox R a b eps = true) :
    TangentBaseFp.isApprox R a b eps' = true := by
  unfold TangentBaseFp.isApprox at h ⊢
  by_cases c : lt (Fp.min (norm R a) (norm R b)) eps = true
  · have c' : lt (Fp.min (norm R a) (norm R b)) eps' = true := lt_of_lt_of_le c hle
    rw [if_pos c] at h
    rw [if_pos c']
    simp only [EigenFp.isZero, isMuchSmallerThan, decide_eq_true_eq] at h ⊢
    have hone : Fp.abs (fin 1) = fin 1 := by simp [Fp.abs]
    rw [hone] at h ⊢
    exact fun i => le_trans (h i) (one_mul_mono R h0 hle)
  · have c' : lt (Fp.min (norm R a) (norm R b)) eps' = false := by
      rcases hreg with h1 | h2
      · exact absurd h1 c
      · exact h2
    rw [if_neg c] at h
    rw [if_neg (by simp [c'])]
    unfold EigenFp.isApprox at h ⊢
    have hM : IsNonnegOrNan (Fp.min (squaredNorm R a) (squaredNorm R b)) :=
      min_isNonnegOrNan (squaredNorm_isNonnegOrNan R a) (squaredNorm_isNonnegOrNan R b)
    rcases mul_mono_right R (mul_self_isNonneg R h0) (mul_self_mono R h0 hle) hM
      (ne_nan_of_le h) with ⟨hE', hM0⟩ | hmono
    · exfalso
      have hm := min_sqrt_eq_zero R (squaredNorm_isNonnegOrNan R a)
        (squaredNorm_isNonnegOrNan R b) hM0
      have hpos := lt_zero_of_mul_self_pinf R (le_trans h0 hle) hE'
      unfold EigenFp.norm at c'
      rw [hm, hpos] at c'
      exact Bool.noConfusion c'
    · exact le_trans h hmono

end manif

namespace manif

open Fp EigenFp

variable {n : Nat}

lemma sampleDouble_ofExact_pos (q : ℚ) (h : 1 / 2 ^ 1075 < q ∧ q < 2 ^ 1024) :
    ofExact Format.sampleDouble q = fin q := by
  have ht : (0 : ℚ) < 1 / 2 ^ 1075 := by positivity
  have hn : ¬ (-(1 / 2 ^ 1075) ≤ q ∧ q ≤ 1 / 2 ^ 1075) := fun hc => by linarith [hc.2, h.1]
  have hr : Format.sampleDouble.rnd q = q := by
    show (if -(1 / 2 ^ 1075) ≤ q ∧ q ≤ 1 / 2 ^ 1075 then 0 else q) = q
    rw [if_neg hn]
  have e1 : ¬ ((2 : ℚ) ^ 1024 ≤ q) := not_le.mpr h.2
  have e2 : ¬ (q ≤ -(2 : ℚ) ^ 1024) := by
    have hp : (0 : ℚ) < 2 ^ 1024 := by positivity
    linarith [h.1]
  rw [ofExact, hr]
  show (if (2 : ℚ) ^ 1024 ≤ q then pinf
    else if q ≤ -(2 : ℚ) ^ 1024 then ninf else fin q) = fin q
  rw [if_neg e1, if_neg e2]

lemma sampleDouble_ofExact_neg (q : ℚ) (h : -(2 : ℚ) ^ 1024 < q ∧ q < -(1 / 2 ^ 1075)) :
    ofExact Format.sampleDouble q = fin q := by
  have ht : (0 : ℚ) < 1 / 2 ^ 1075 := by positivity
  have hn : ¬ (-(1 / 2 ^ 1075) ≤ q ∧ q ≤ 1 / 2 ^ 1075) := fun hc => by linarith [hc.1, h.2]
  have hr : Format.sampleDouble.rnd q = q := by
    show (if -(1 / 2 ^ 1075) ≤ q ∧ q ≤ 1 / 2 ^ 1075 then 0 else q) = q
    rw [if_neg hn]
  have e1 : ¬ ((2 : ℚ) ^ 1024 ≤ q) := by
    have hp : (0 : ℚ) < 2 ^ 1024 := by positivity
    linarith [h.2]
  have e2 : ¬ (q ≤ -(2 : ℚ) ^ 1024) := not_le.mpr h.1
  rw [ofExact, hr]
  show (if (2 : ℚ) ^ 1024 ≤ q then pinf
    else if q ≤ -(2 : ℚ) ^ 1024 then ninf else fin q) = fin q
  rw [if_neg e1, if_neg e2]

lemma sampleDouble_ofExact_tiny (q : ℚ) (h : -(1 / 2 ^ 1075) ≤ q ∧ q ≤ 1 / 2 ^ 1075) :
    ofExact Format.sampleDouble q = fin 0 := by
  have hr : Format.sampleDouble.rnd q = 0 := by
    show (if -(1 / 2 ^ 1075) ≤ q ∧ q ≤ 1 / 2 ^ 1075 then 0 else q) = 0
    rw [if_pos h]
  rw [ofExact, hr, clamp_zero]

lemma TangentBaseFp.isApprox_single (R : Format) (a b eps : Fp) :
    TangentBaseFp.isApprox R ![a] ![b] eps =
      if lt (Fp.min (sqrt R (mul R a a)) (sqrt R (mul R b b))) eps = true then
        le (Fp.abs (sub R a b)) (mul R (fin 1) eps)
      else
        le (mul R (sub R a b) (sub R a b))
          (mul R (mul R eps eps) (Fp.min (mul R a a) (mul R b b))) := by
  simp [TangentBaseFp.isApprox, EigenFp.norm, EigenFp.isApprox, EigenFp.isZero,
    isMuchSmallerThan, squaredNorm, EigenFp.sum, List.ofFn_succ, Fp.abs]

end manif

namespace manif

open Fp EigenFp

variable {n : Nat}

lemma sampleDouble_square (q : ℚ) (hq : 0 ≤ q) (h : 1 / 2 ^ 1075 < q * q ∧ q * q < 2 ^ 1024) :
    mul Format.sampleDouble (fin q) (fin q) = fin (q * q) ∧
    sqrt Format.sampleDouble (fin (q * q)) = fin q := by
  constructor
  · exact sampleDouble_ofExact_pos _ h
  · have hn : ¬ q * q < 0 := not_lt.mpr (mul_self_nonneg q)
    have hr : Format.sampleDouble.rsqrt (q * q) = q := by
      show Rat.sqrt (q * q) = q
      rw [Rat.sqrt_eq, abs_of_nonneg hq]
    rw [sqrt, if_neg hn, hr]

/-- The two ways loosening the tolerance loses an accepted pair, on the sample
format.  With `a = (2)`, `b = (6)` the pair is accepted at `eps = 2` in the
relative regime and rejected at `eps = 3` in the absolute regime.  With
`a = (2^-600)`, `b = (2^-599)` the squared norms underflow to zero: the pair is
accepted at `eps = 0` in the relative regime and rejected at `eps = 2^-601` in
the absolute regime. -/
lemma TangentBaseFp.isApprox_not_monotone_sample :
    TangentBaseFp.isApprox Format.sampleDouble ![fin 2] ![fin 6] (fin 2) = true ∧
    TangentBaseFp.isApprox Format.sampleDouble ![fin 2] ![fin 6] (fin 3) = false ∧
    TangentBaseFp.isApprox Format.sampleDouble ![fin (1 / 2 ^ 600)] ![fin (1 / 2 ^ 599)]
      (fin 0) = true ∧
    TangentBaseFp.isApprox Format.sampleDouble ![fin (1 / 2 ^ 600)] ![fin (1 / 2 ^ 599)]
      (fin (1 / 2 ^ 601)) = false := by
  have s2 := sampleDouble_square 2 (by norm_num) (by norm_num)
  have s6 := sampleDouble_square 6 (by norm_num) (by norm_num)
  have d26 : sub Format.sampleDouble (fin 2) (fin 6) = fin (-4) := by
    simp only [sub, neg, add]
    rw [sampleDouble_ofExact_neg _ (by norm_num)]
    norm_num
  have ta : mul Format.sampleDouble (fin (1 / 2 ^ 600)) (fin (1 / 2 ^ 600)) = fin 0 :=
    sampleDouble_ofExact_tiny _ (by norm_num)
  have tb : mul Format.sampleDouble (fin (1 / 2 ^ 599)) (fin (1 / 2 ^ 599)) = fin 0 :=
    sampleDouble_ofExact_tiny _ (by norm_num)
  have td : sub Format.sampleDouble (fin (1 / 2 ^ 600)) (fin (1 / 2 ^ 599)) =
      fin (-(1 / 2 ^ 600)) := by
    simp only [sub, neg, add]
    rw [sampleDouble_ofExact_neg _ (by norm_num)]
    norm_num
  have tdd : mul Format.sampleDouble (fin (-(1 / 2 ^ 600))) (fin (-(1 / 2 ^ 600))) = fin 0 :=
    sampleDouble_ofExact_tiny _ (by norm_num)
  have s0 : sqrt Format.sampleDouble (fin 0) = fin 0 := by
    simp [sqrt, Format.sampleDouble.rsqrt_zero]
  have m00 : mul Format.sampleDouble (fin 0) (fin 0) = fin 0 := by
    simp [mul, ofExact_zero]
  have m1 : Fp.min (fin 2) (fin 6) = fin 2 := by norm_num [Fp.min, lt]
  have m2 : Fp.min (fin (2 * 2)) (fin (6 * 6)) = fin (2 * 2) := by norm_num [Fp.min, lt]
  have p1 : mul Format.sampleDouble (fin (-4)) (fin (-4)) = fin 16 := by
    simp only [mul]
    rw [sampleDouble_ofExact_pos _ (by norm_num)]
    norm_num
  have p2 : mul Format.sampleDouble (fin (2 * 2)) (fin (2 * 2)) = fin 16 := by
    simp only [mul]
    rw [sampleDouble_ofExact_pos _ (by norm_num)]
    norm_num
  have p3 : mul Format.sampleDouble (fin 1) (fin 3) = fin 3 := by
    simp only [mul]
    rw [sampleDouble_ofExact_pos _ (by norm_num)]
    norm_num
  have a4 : Fp.abs (fin (-4)) = fin 4 := by
    show fin |(-4 : ℚ)| = fin 4
    rw [abs_neg, abs_of_nonneg (by norm_num)]
  have at6 : Fp.abs (fin (-(1 / 2 ^ 600))) = fin (1 / 2 ^ 600) := by
    show fin |(-(1 / 2 ^ 600) : ℚ)| = fin (1 / 2 ^ 600)
    rw [abs_neg, abs_of_nonneg (by positivity)]
  have e1 : mul Format.sampleDouble (fin 1) (fin (1 / 2 ^ 601)) = fin (1 / 2 ^ 601) := by
    simp only [mul]
    rw [sampleDouble_ofExact_pos _ (by norm_num)]
    norm_num
  refine ⟨?_, ?_, ?_, ?_⟩
  · rw [TangentBaseFp.isApprox_single, d26, s2.1, s6.1, s2.2, s6.2, m1, m2, p1, p2]
    norm_num [lt, le]
  · rw [TangentBaseFp.isApprox_single, d26, s2.1, s6.1, s2.2, s6.2, m1, a4, p3]
    norm_num [lt, le]
  · rw [TangentBaseFp.isApprox_single, td, ta, tb, tdd, s0, m00]
    simp [Fp.min, lt, le, m00]
  · rw [TangentBaseFp.isApprox_single, td, ta, tb, s0, at6, e1]
    norm_num [Fp.min, lt, le]

end manif

/-! ## Reflexivity and monotonicity of `isApprox` on scalars with a bounded range -/

namespace manif

open Fp EigenFp

variable {n : Nat}

lemma Fp.sub_self_of_not_finite (R : Format) {x : Fp} (h : ∀ q, x ≠ fin q) :
    sub R x x = nan := by
  cases x with
  | fin q => exact (h q rfl).elim
  | pinf => rfl
  | ninf => rfl
  | nan => rfl

lemma Fp.add_nan_right (R : Format) (x : Fp) : add R x nan = nan := by
  cases x <;> rfl

lemma EigenFp.foldl_add_nan (R : Format) (ps : List Fp) : ps.foldl (add R) nan = nan := by
  induction ps with
  | nil => rfl
  | cons q qs ih =>
    rw [List.foldl_cons]
    have h : add R nan q = nan := by cases q <;> rfl
    rw [h]
    exact ih

lemma EigenFp.foldl_add_of_mem_nan (R : Format) (ps : List Fp) (p : Fp) (h : nan ∈ ps) :
    ps.foldl (add R) p = nan := by
  induction ps generalizing p with
  | nil => simp at h
  | cons q qs ih =>
    rw [List.foldl_cons]
    rcases List.mem_cons.mp h with hq | hqs
    · rw [← hq, Fp.add_nan_right, EigenFp.foldl_add_nan]
    · exact ih _ hqs

lemma EigenFp.sum_of_mem_nan (R : Format) (l : List Fp) (h : nan ∈ l) :
    EigenFp.sum R l = nan := by
  cases l with
  | nil => simp at h
  | cons p ps =>
    rcases List.mem_cons.mp h with hp | hps
    · rw [← hp]
      exact EigenFp.foldl_add_nan R ps
    · exact EigenFp.foldl_add_of_mem_nan R ps p hps

lemma EigenFp.squaredNorm_of_nan (R : Format) (v : Fin n → Fp) (i : Fin n) (h : v i = nan) :
    squaredNorm R v = nan := by
  apply EigenFp.sum_of_mem_nan
  rw [List.mem_ofFn]
  refine ⟨i, ?_⟩
  show mul R (v i) (v i) = nan
  rw [h]
  rfl

/-- The comparison of a vector that has an infinite or NaN coefficient with itself
is false: the difference has a NaN coefficient, which fails both tests. -/
lemma TangentBaseFp.isApprox_self_of_not_finite (R : Format) (x : Fin n → Fp) (eps : Fp)
    (i : Fin n) (hi : ∀ q, x i ≠ fin q) : TangentBaseFp.isApprox R x x eps = false := by
  have hd : sub R (x i) (x i) = nan := Fp.sub_self_of_not_finite R hi
  unfold TangentBaseFp.isApprox
  split
  · rw [EigenFp.isZero, decide_eq_false_iff_not]
    intro hall
    have h := hall i
    rw [isMuchSmallerThan, hd] at h
    simp [Fp.abs, le] at h
  · rw [EigenFp.isApprox, EigenFp.squaredNorm_of_nan R (fun j => sub R (x j) (x j)) i hd]
    rfl

/-- C8, amended: on scalars with a bounded range, for every vector `x` with finite
coefficients and every tolerance `eps >= 0` (the zero tolerance and the zero
vector included), `x.isApprox(x, eps)` is true whenever `squaredNorm(x)` is
finite.  In general, for `eps >= 0`, it is true exactly when all coefficients of
`x` are finite and it is not the case that `squaredNorm(x)` overflows to
infinity while `eps * eps` evaluates to zero. -/
theorem TangentBaseFp.isApprox_refl_finite (R : Format) (x : Fin n → Fp) (eps : Fp)
    (heps : le (fin 0) eps = true) :
    ((∀ i, ∃ q, x i = fin q) → (∃ q, squaredNorm R x = fin q) →
      TangentBaseFp.isApprox R x x eps = true) ∧
    (TangentBaseFp.isApprox R x x eps = true ↔
      (∀ i, ∃ q, x i = fin q) ∧ ¬ (squaredNorm R x = pinf ∧ mul R eps eps = fin 0)) := by
  constructor
  · intro hx hq
    obtain ⟨q, hq⟩ := hq
    rw [TangentBaseFp.isApprox_self_iff R x eps hx heps, hq]
    simp
  · constructor
    · intro h
      have hx : ∀ i, ∃ q, x i = fin q := by
        intro i
        by_contra hi
        have hf := TangentBaseFp.isApprox_self_of_not_finite R x eps i
          (fun q hq => hi ⟨q, hq⟩)
        rw [h] at hf
        exact Bool.noConfusion hf
      exact ⟨hx, (TangentBaseFp.isApprox_self_iff R x eps hx heps).mp h⟩
    · intro h
      exact (TangentBaseFp.isApprox_self_iff R x eps h.1 heps).mpr h.2

/-- Witness of the amended C8 at the zero vector of length 3 with the tolerance 0
on the sample format. -/
theorem TangentBaseFp.isApprox_refl_finite_witness :
    (∀ i : Fin 3, ∃ q, (fun _ => fin 0 : Fin 3 → Fp) i = fin q) ∧
    le (fin 0) (fin 0) = true ∧
    TangentBaseFp.isApprox Format.sampleDouble (fun _ => fin 0 : Fin 3 → Fp)
      (fun _ => fin 0) (fin 0) = true := by
  have hx : ∀ i : Fin 3, ∃ q, (fun _ => fin 0 : Fin 3 → Fp) i = fin q := fun _ => ⟨0, rfl⟩
  have heps : le (fin 0) (fin 0) = true := by simp [le]
  exact ⟨hx, heps,
    (TangentBaseFp.isApprox_refl_finite Format.sampleDouble _ (fin 0) heps).1 hx
      ⟨0, squaredNorm_zero _ _ (fun _ => rfl)⟩⟩

lemma squaredNorm_overflow_sample (R : Format) (hR : R.overflow = 2 ^ 1024) :
    squaredNorm R ![fin (2 ^ 600), fin 0, fin 0] = pinf := by
  have h1 : ofExact R (2 ^ 600 * 2 ^ 600) = pinf := by
    apply ofExact_overflow
    rw [hR]
    norm_num
  simp [squaredNorm, EigenFp.sum, List.ofFn_succ, mul, add, h1, ofExact_zero]

/-- Counterexample to C8 as stated: with `x = (2^600, 0, 0)` and the tolerance
`eps = 0`, `x.isApprox(x, eps)` is false on the sample format and on every format
with the overflow threshold `2^1024` of `double`: `squaredNorm(x)` overflows to
infinity, the relative regime is taken, and `0 <= 0 * 0 * inf` compares with
NaN. -/
theorem TangentBaseFp.isApprox_not_refl_overflow :
    le (fin 0) (fin 0) = true ∧
    TangentBaseFp.isApprox Format.sampleDouble ![fin (2 ^ 600), fin 0, fin 0]
      ![fin (2 ^ 600), fin 0, fin 0] (fin 0) = false ∧
    ∀ R : Format, R.overflow = 2 ^ 1024 →
      TangentBaseFp.isApprox R ![fin (2 ^ 600), fin 0, fin 0]
        ![fin (2 ^ 600), fin 0, fin 0] (fin 0) = false := by
  have hx : ∀ i : Fin 3, ∃ q, (![fin (2 ^ 600), fin 0, fin 0] : Fin 3 → Fp) i = fin q := by
    intro i
    fin_cases i
    · exact ⟨2 ^ 600, rfl⟩
    · exact ⟨0, rfl⟩
    · exact ⟨0, rfl⟩
  have heps : le (fin 0) (fin 0) = true := by simp [le]
  have gen : ∀ R : Format, R.overflow = 2 ^ 1024 →
      TangentBaseFp.isApprox R ![fin (2 ^ 600), fin 0, fin 0]
        ![fin (2 ^ 600), fin 0, fin 0] (fin 0) = false := by
    intro R hR
    rw [← Bool.not_eq_true, TangentBaseFp.isApprox_self_iff R _ (fin 0) hx heps, not_not]
    exact ⟨squaredNorm_overflow_sample R hR, by simp [mul, ofExact_zero]⟩
  exact ⟨heps, gen Format.sampleDouble rfl, gen⟩

/-- Witness of the amended C14 on the sample format at `a = (2)`, `b = (3)` with
the tolerances `1/2 <= 1`: the pair is compared in the relative regime at both
and accepted at `1/2` (`1 <= 1/4 * 4`), hence at `1`. -/
theorem TangentBaseFp.isApprox_mono_same_regime_witness :
    le (fin 0) (fin (1 / 2)) = true ∧ le (fin (1 / 2)) (fin 1) = true ∧
    lt (Fp.min (EigenFp.norm Format.sampleDouble ![fin 2])
      (EigenFp.norm Format.sampleDouble ![fin 3])) (fin 1) = false ∧
    TangentBaseFp.isApprox Format.sampleDouble ![fin 2] ![fin 3] (fin (1 / 2)) = true ∧
    TangentBaseFp.isApprox Format.sampleDouble ![fin 2] ![fin 3] (fin 1) = true := by
  have s2 := sampleDouble_square 2 (by norm_num) (by norm_num)
  have s3 := sampleDouble_square 3 (by norm_num) (by norm_num)
  have h0 : le (fin 0) (fin (1 / 2)) = true := by simp [le]
  have hle : le (fin (1 / 2)) (fin 1) = true := by norm_num [le]
  have m1 : Fp.min (fin 2) (fin 3) = fin 2 := by norm_num [Fp.min, lt]
  have m2 : Fp.min (fin (2 * 2)) (fin (3 * 3)) = fin (2 * 2) := by norm_num [Fp.min, lt]
  have hreg : lt (Fp.min (EigenFp.norm Format.sampleDouble ![fin 2])
      (EigenFp.norm Format.sampleDouble ![fin 3])) (fin 1) = false := by
    have na : EigenFp.norm Format.sampleDouble ![fin 2] = fin 2 := by
      simp only [EigenFp.norm, squaredNorm, List.ofFn_succ, List.ofFn_zero, EigenFp.sum,
        List.foldl_nil, Matrix.cons_val_zero]
      rw [s2.1, s2.2]
    have nb : EigenFp.norm Format.sampleDouble ![fin 3] = fin 3 := by
      simp only [EigenFp.norm, squaredNorm, List.ofFn_succ, List.ofFn_zero, EigenFp.sum,
        List.foldl_nil, Matrix.cons_val_zero]
      rw [s3.1, s3.2]
    rw [na, nb, m1]
    norm_num [lt]
  have d23 : sub Format.sampleDouble (fin 2) (fin 3) = fin (-1) := by
    simp only [sub, neg, add]
    rw [sampleDouble_ofExact_neg _ (by norm_num)]
    norm_num
  have p1 : mul Format.sampleDouble (fin (-1)) (fin (-1)) = fin 1 := by
    simp only [mul]
    rw [sampleDouble_ofExact_pos _ (by norm_num)]
    norm_num
  have p2 : mul Format.sampleDouble (fin (1 / 2)) (fin (1 / 2)) = fin (1 / 4) := by
    simp only [mul]
    rw [sampleDouble_ofExact_pos _ (by norm_num)]
    norm_num
  have p3 : mul Format.sampleDouble (fin (1 / 4)) (fin (2 * 2)) = fin 1 := by
    simp only [mul]
    rw [sampleDouble_ofExact_pos _ (by norm_num)]
    norm_num
  have h : TangentBaseFp.isApprox Format.sampleDouble ![fin 2] ![fin 3] (fin (1 / 2)) = true := by
    rw [TangentBaseFp.isApprox_single, d23, s2.1, s3.1, s2.2, s3.2, m1, m2, p1, p2, p3]
    norm_num [lt, le]
  exact ⟨h0, hle, hreg, h,
    TangentBaseFp.isApprox_mono_same_regime Format.sampleDouble _ _ _ _ h0 hle (Or.inr hreg) h⟩

end manif
